import Mathlib

/-!
Verification of the availability-resolution and form-state logic of the
appointment-booking widget (`src/AppointmentBooking.tsx`).

The component's pure derivation layer (the `useMemo` blocks `daysByKey` /
`availableDaySet` / `earliestAvailableDate` / `selectedDayData` /
`employeesForUI` / `servicesForUI` / `slotsForUI`, the `canReserve`
validation) is embedded as executable Lean functions, and the four
`useEffect` reset cascades together with React's effect scheduling are
embedded as a render-pass state machine (`runPass` / `settle`).

Conventions:
* Calendar dates produced by `startOfDay` are modelled as `CalDate`
  (year/month/day); the chronological order on actual calendar dates is the
  lexicographic order on (year, month, day).
* JavaScript strings are Lean `String`s; JS string comparison (used by
  `Array.prototype.sort()` with no comparator) is UTF-16 code-unit
  lexicographic order, modelled by `keyLt` below (all date keys are ASCII).
* The JS engine's `new Date(string)` parser is an external input; it is
  passed in as a `DateParser` (a pair of partial parsing functions, `none`
  modelling an Invalid Date).  `format` of an Invalid Date throws
  (date-fns `RangeError`), modelled by an `Option` result of `toKey`.
-/

namespace Booking

/-- A local calendar date as produced by date-fns `startOfDay`. -/
structure CalDate where
  year : Nat
  month : Nat
  day : Nat
deriving DecidableEq, Repr

/-- Strict chronological order on calendar dates: lexicographic on
(year, month, day).  For actual calendar dates this coincides with
date-fns `isBefore` on the underlying timestamps. -/
def CalDate.before (a b : CalDate) : Bool :=
  a.year < b.year ||
    (a.year == b.year && (a.month < b.month ||
      (a.month == b.month && a.day < b.day)))

/-- The character range matched by `\d` in the `toKey` regex. -/
def isDigitChar (c : Char) : Bool := 48 ≤ c.toNat && c.toNat ≤ 57

/-- Numeric value of a digit character. -/
def digitVal (c : Char) : Nat := c.toNat - 48

/-- Value of a most-significant-first digit string. -/
def digitsVal : List Char → Nat
  | [] => 0
  | c :: cs => digitVal c * 10 ^ cs.length + digitsVal cs

/-- Implementation helper for `numChars`; the `fuel` argument makes the
recursion structural and is always supplied large enough. -/
def numCharsAux : Nat → Nat → List Char
  | 0, _ => []
  | fuel + 1, n =>
    if n < 10 then [Char.ofNat (48 + n)]
    else numCharsAux fuel (n / 10) ++ [Char.ofNat (48 + n % 10)]

/-- The decimal digit characters, least significant digit last: the JS
number-to-string conversion for a nonnegative integer. -/
def numChars (n : Nat) : List Char := numCharsAux (n + 1) n

/-- date-fns `addLeadingZeros`: the decimal digits of `n`, left-padded
with zeros to at least width `w` (longer numbers keep all their digits). -/
def padChars (w n : Nat) : List Char :=
  List.replicate (w - (numChars n).length) '0' ++ numChars n

/-- date-fns `format(d, "yyyy-MM-dd")` on a calendar date. -/
def formatYMD (c : CalDate) : String :=
  ⟨padChars 4 c.year ++ '-' :: (padChars 2 c.month ++ '-' :: padChars 2 c.day)⟩

/-- The `toKey` fast-path test `/^\d{4}-\d{2}-\d{2}$/.test(d)`. -/
def isDateKey (s : String) : Bool :=
  match s.data with
  | [a, b, c, d, h1, e, f, h2, g, h] =>
    isDigitChar a && isDigitChar b && isDigitChar c && isDigitChar d &&
    h1 == '-' && isDigitChar e && isDigitChar f && h2 == '-' &&
    isDigitChar g && isDigitChar h
  | _ => false

/-- Gregorian leap-year rule (as implemented by the JS `Date`). -/
def isLeapYear (y : Nat) : Bool :=
  y % 4 == 0 && (y % 100 != 0 || y % 400 == 0)

/-- Number of days in a month, for validating ISO date strings. -/
def daysInMonth (y m : Nat) : Nat :=
  if m == 2 then (if isLeapYear y then 29 else 28)
  else if m == 4 || m == 6 || m == 9 || m == 11 then 30
  else 31

/-- Model of `new Date(key + "T00:00:00")` for a key in `yyyy-MM-dd` shape:
an ISO local-midnight parse.  Returns `none` (an Invalid Date) when the
string is not in shape or a component is out of range, exactly as the
ECMA-262 ISO parser does. -/
def parseKeyShaped (s : String) : Option CalDate :=
  match s.data with
  | [a, b, c, d, h1, e, f, h2, g, h] =>
    if isDigitChar a && isDigitChar b && isDigitChar c && isDigitChar d &&
       h1 == '-' && isDigitChar e && isDigitChar f && h2 == '-' &&
       isDigitChar g && isDigitChar h then
      if 1 ≤ digitsVal [e, f] && digitsVal [e, f] ≤ 12 && 1 ≤ digitsVal [g, h] &&
         digitsVal [g, h] ≤ daysInMonth (digitsVal [a, b, c, d]) (digitsVal [e, f]) then
        some ⟨digitsVal [a, b, c, d], digitsVal [e, f], digitsVal [g, h]⟩
      else none
    else none
  | _ => none

/-- JS `<` on individual UTF-16 code units (ASCII here). -/
def charLtB (a b : Char) : Bool := a.toNat < b.toNat

/-- JS string `<`: lexicographic comparison of code-unit sequences. -/
def listLtB : List Char → List Char → Bool
  | [], [] => false
  | [], _ :: _ => true
  | _ :: _, [] => false
  | a :: as, b :: bs =>
    if charLtB a b then true else if charLtB b a then false else listLtB as bs

/-- The default comparison used by `Array.prototype.sort()` on strings. -/
def keyLt (s t : String) : Bool := listLtB s.data t.data

/-- Insertion step of the sort. -/
def insertKey (k : String) : List String → List String
  | [] => [k]
  | x :: xs => if keyLt k x then k :: x :: xs else x :: insertKey k xs

/-- Model of `Array.prototype.sort()` on a list of string keys (the sorted
arrangement of a string array is unique up to equal elements, so any
correct sort models it). -/
def sortKeys : List String → List String
  | [] => []
  | x :: xs => insertKey x (sortKeys xs)

/-! ### Data model (the aggregated availability endpoint types) -/

structure Service where
  id : Nat
  name : String
  durationMinutes : Option Nat
deriving DecidableEq, Repr

structure EmployeeAvailability where
  id : Nat
  name : String
  lastname : Option String
  services : List Service
  slots : List String
deriving DecidableEq, Repr

structure DayAvailability where
  date : String
  employees : List EmployeeAvailability
deriving DecidableEq, Repr

structure AvailabilityResponse where
  companyId : Nat
  month : String
  days : List DayAvailability
deriving DecidableEq, Repr

/-- JS `String(n)` for a nonnegative integer. -/
def natStr (n : Nat) : String := ⟨numChars n⟩

/-- JS `String(x.id) === filterId` comparison (the filter state is a
string, `""` meaning unset). -/
def idMatches (filterId : String) (i : Nat) : Bool := natStr i == filterId

/-- The environment's `new Date(string)` parsing behaviour (composed with
`startOfDay`): `loose` models `new Date(d)`, `iso` models
`new Date(d + "T00:00:00")`; `none` is an Invalid Date. -/
structure DateParser where
  loose : String → Option CalDate
  iso : String → Option CalDate

/-- Input to `toKey`: a JS `Date` or a string. -/
inductive DateInput where
  | date (d : CalDate)
  | str (s : String)

/-- The `toKey` normalizer (source lines 82-90).  The result is `none`
when both parses yield an Invalid Date, modelling the `RangeError` thrown
by `format(startOfDay(invalid))`. -/
def toKey (P : DateParser) : DateInput → Option String
  | .date d => some (formatYMD d)
  | .str s =>
    if isDateKey s then some s
    else
      match P.loose s with
      | some c => some (formatYMD c)
      | none =>
        match P.iso s with
        | some c => some (formatYMD c)
        | none => none

/-! ### Derivation layer (the `useMemo` blocks) -/

/-- JS `Map.set`: replace the value at an existing key (keeping its
insertion position) or append a new binding. -/
def upsert {κ α : Type} [BEq κ] : List (κ × α) → κ → α → List (κ × α)
  | [], k, v => [(k, v)]
  | (k', v') :: rest, k, v =>
    if k' == k then (k, v) :: rest else (k', v') :: upsert rest k v

/-- JS `Map.get` (`none` for `undefined`). -/
def mapGet {κ α : Type} [BEq κ] (m : List (κ × α)) (k : κ) : Option α :=
  (m.find? (fun p => p.1 == k)).map (fun p => p.2)

/-- JS `Set.add`. -/
def setAdd (s : List String) (k : String) : List String :=
  if s.contains k then s else s ++ [k]

/-- The per-day filter logic of the `availableDaySet` memo (the
`dayHasAvailability` computation, source lines 183-204). -/
def dayHasAvailability (employeeId serviceId : String) (d : DayAvailability) : Bool :=
  if employeeId != "" then
    match d.employees.find? (fun e => idMatches employeeId e.id) with
    | some emp =>
      if emp.slots.length > 0 then
        if serviceId != "" then emp.services.any (fun sv => idMatches serviceId sv.id)
        else true
      else false
    | none => false
  else if serviceId != "" then
    d.employees.any (fun e =>
      e.slots.length > 0 && e.services.any (fun sv => idMatches serviceId sv.id))
  else
    d.employees.any (fun e => e.slots.length > 0)

/-- One iteration of the `availableDaySet` memo loop (source lines
176-207): record the day in the map, skip days strictly before today,
and add the key when the filtered day has availability.  `none` models a
thrown `toKey`. -/
def dayIndexStep (P : DateParser) (today : CalDate) (employeeId serviceId : String)
    (acc : List (String × DayAvailability) × List String) (d : DayAvailability) :
    Option (List (String × DayAvailability) × List String) :=
  match toKey P (.str d.date) with
  | none => none
  | some key =>
    let m := upsert acc.1 key d
    let isPast :=
      match parseKeyShaped key with
      | some c => CalDate.before c today
      | none => false
    if isPast then some (m, acc.2)
    else if dayHasAvailability employeeId serviceId d then some (m, setAdd acc.2 key)
    else some (m, acc.2)

/-- The `daysByKey` / `availableDaySet` memo (source lines 170-211). -/
def buildDayIndex (P : DateParser) (today : CalDate)
    (availability : Option AvailabilityResponse) (employeeId serviceId : String) :
    Option (List (String × DayAvailability) × List String) :=
  match availability with
  | none => some ([], [])
  | some a => a.days.foldlM (dayIndexStep P today employeeId serviceId) ([], [])

/-- The `earliestAvailableDate` memo (source lines 214-221): sort the
snapshot's keys filtered to the available-day set and parse the first
back into a `Date`.  A malformed first key would yield an Invalid Date,
modelled as no selection. -/
def earliestAvailableDate (P : DateParser)
    (availability : Option AvailabilityResponse) (daySet : List String) :
    Option (Option CalDate) :=
  match availability with
  | none => some none
  | some a =>
    if daySet.length == 0 then some none
    else
      match a.days.mapM (fun d => toKey P (.str d.date)) with
      | none => none
      | some keys =>
        match sortKeys (keys.filter (fun k => daySet.contains k)) with
        | [] => some none
        | k :: _ => some (parseKeyShaped k)

/-- The `selectedDayData` memo (source lines 247-250). -/
def selectedDayData (availability : Option AvailabilityResponse)
    (selectedDate : Option CalDate)
    (daysByKey : List (String × DayAvailability)) : Option DayAvailability :=
  match availability, selectedDate with
  | some _, some d => mapGet daysByKey (formatYMD d)
  | _, _ => none

/-- The `employeesForUI` memo (source lines 253-258). -/
def employeesForUI (dayData : Option DayAvailability) (serviceId : String) :
    List EmployeeAvailability :=
  match dayData with
  | none => []
  | some dd =>
    let base := dd.employees.filter (fun e => e.slots.length > 0)
    if serviceId == "" then base
    else base.filter (fun e => e.services.any (fun sv => idMatches serviceId sv.id))

/-- The `servicesForUI` memo (source lines 261-273). -/
def servicesForUI (dayData : Option DayAvailability) (employeeId : String) :
    List Service :=
  match dayData with
  | none => []
  | some dd =>
    if employeeId != "" then
      match dd.employees.find? (fun e => idMatches employeeId e.id) with
      | some emp => emp.services
      | none => []
    else
      let m := dd.employees.foldl (fun m e =>
        if e.slots.length == 0 then m
        else e.services.foldl (fun m2 sv => upsert m2 sv.id sv) m) []
      m.map (fun p => p.2)

/-- The `slotsForUI` memo (source lines 276-280). -/
def slotsForUI (dayData : Option DayAvailability) (employeeId : String) :
    List String :=
  match dayData with
  | none => []
  | some dd =>
    if employeeId == "" then []
    else
      match dd.employees.find? (fun e => idMatches employeeId e.id) with
      | some emp => emp.slots
      | none => []

/-! ### Component state and the effect cascade -/

/-- The component's `useState` values. `availGen` is a generation counter
modelling the object identity of the `availability` value (a fresh object
on every `setAvailability`); `month` is the `yyyy-MM` request parameter of
the displayed month. -/
structure UIState where
  name : String
  phone : String
  note : String
  serviceId : String
  employeeId : String
  selectedSlot : String
  month : String
  selectedDate : Option CalDate
  availability : Option AvailabilityResponse
  availGen : Nat
  loadingAvailability : Bool
  error : String
  submitting : Bool
  timeOpen : Bool
deriving DecidableEq, Repr

/-- The derived values of one committed render. -/
structure Derived where
  daysByKey : List (String × DayAvailability)
  availableDaySet : List String
  earliest : Option CalDate
  dayData : Option DayAvailability
deriving DecidableEq, Repr

/-- Compute the memos of a committed render of `s` (`none` when a memo
throws, which only happens when a snapshot key fails to normalize). -/
def derive (P : DateParser) (today : CalDate) (s : UIState) : Option Derived :=
  match buildDayIndex P today s.availability s.employeeId s.serviceId with
  | none => none
  | some (m, daySet) =>
    match earliestAvailableDate P s.availability daySet with
    | none => none
    | some earliest =>
      some ⟨m, daySet, earliest, selectedDayData s.availability s.selectedDate m⟩

/-- Effect of source lines 224-237: keep `selectedDate` valid for the
current filters, else jump to the earliest available date or clear date
and slot. -/
def validityEffect (D : Derived) (cur acc : UIState) : UIState :=
  match cur.availability with
  | none => acc
  | some _ =>
    let valid :=
      match cur.selectedDate with
      | some d => D.availableDaySet.contains (formatYMD d)
      | none => false
    if valid then acc
    else
      match D.earliest with
      | some c => { acc with selectedDate := some c }
      | none => { acc with selectedDate := none, selectedSlot := "" }

/-- Effect of source lines 283-286: reset the slot when the date changed. -/
def dateResetEffect (acc : UIState) : UIState :=
  { acc with selectedSlot := "", timeOpen := false }

/-- Effect of source lines 289-308, run when `employeeId` changed: clear a
service the employee cannot perform, jump the date when the employee has
no usable slots on the selected day, and reset the slot. -/
def employeeEffect (D : Derived) (cur acc : UIState) : UIState :=
  if cur.employeeId == "" then acc
  else
    match D.dayData with
    | none => acc
    | some dd =>
      match dd.employees.find? (fun e => idMatches cur.employeeId e.id) with
      | none => acc
      | some emp =>
        let acc1 :=
          if cur.serviceId != "" &&
              !(emp.services.any (fun sv => idMatches cur.serviceId sv.id)) then
            { acc with serviceId := "" }
          else acc
        -- `selectedDayData === daysByKey.get(toKey(selectedDate ?? new Date()))`:
        -- with a selected date this compares the memo against the very same
        -- map lookup (object identity, hence value equality); with no
        -- selected date it compares `null` against `undefined`/an object.
        let hasSlotsToday := emp.slots.length > 0 &&
          (match cur.selectedDate with
           | some d => some dd == mapGet D.daysByKey (formatYMD d)
           | none => false)
        let canToday := hasSlotsToday &&
          (cur.serviceId == "" ||
            emp.services.any (fun sv => idMatches cur.serviceId sv.id))
        let acc2 :=
          if !canToday then
            match D.earliest with
            | some c => { acc1 with selectedDate := some c }
            | none => acc1
          else acc1
        { acc2 with selectedSlot := "", timeOpen := false }

/-- Effect of source lines 311-319, run when `serviceId`, `employeeId` or
`selectedDayData` changed: clear an employee (and the slot) that cannot
perform the chosen service on the selected day. -/
def serviceEffect (D : Derived) (cur acc : UIState) : UIState :=
  if cur.serviceId == "" || cur.employeeId == "" then acc
  else
    match D.dayData with
    | none => acc
    | some dd =>
      match dd.employees.find? (fun e => idMatches cur.employeeId e.id) with
      | some emp =>
        if emp.services.any (fun sv => idMatches cur.serviceId sv.id) then acc
        else { acc with employeeId := "", selectedSlot := "", timeOpen := false }
      | none => { acc with employeeId := "", selectedSlot := "", timeOpen := false }

/-- Object-identity change of the `selectedDayData` dependency between two
committed renders (React compares `useEffect` deps with `Object.is`): a
fresh snapshot produces fresh day objects, otherwise the memo returns the
identical object exactly when it returns the same map entry. -/
def dayDataDepChanged (prev cur : UIState) (Dp Dc : Derived) : Bool :=
  if prev.availGen != cur.availGen then
    !(Dp.dayData == none && Dc.dayData == none)
  else
    Dp.dayData != Dc.dayData

/-- One React effect pass after committing render `cur` (the previously
committed render being `prev`): each effect whose dependency list changed
runs, in declaration order; all read the committed render `cur`, and their
state writes are merged (last write per field wins) into the next render.
A render whose memos throw is modelled as leaving the state unchanged. -/
def runPass (P : DateParser) (today : CalDate) (prev cur : UIState) : UIState :=
  match derive P today prev, derive P today cur with
  | some Dp, some Dc =>
    let e2 := prev.availGen != cur.availGen || prev.employeeId != cur.employeeId ||
      prev.serviceId != cur.serviceId
    let a0 := cur
    let a1 := if e2 then validityEffect Dc cur a0 else a0
    let a2 := if prev.selectedDate != cur.selectedDate then dateResetEffect a1 else a1
    let a3 := if prev.employeeId != cur.employeeId then employeeEffect Dc cur a2 else a2
    let a4 := if prev.serviceId != cur.serviceId || prev.employeeId != cur.employeeId ||
        dayDataDepChanged prev cur Dp Dc then serviceEffect Dc cur a3 else a3
    a4
  | _, _ => cur

/-- Run effect passes to quiescence (React re-renders only while some
effect write actually changed the state).  `fuel` bounds the number of
passes; the theorems hold for every sufficient fuel. -/
def settle (P : DateParser) (today : CalDate) : Nat → UIState → UIState → UIState
  | 0, _, cur => cur
  | fuel + 1, prev, cur =>
    let nxt := runPass P today prev cur
    if nxt = cur then cur else settle P today fuel cur nxt

/-- User event: choosing an employee in the employee `Select` (a setState
of `employeeId`, then the effect cascade; React bails out when the value
is unchanged). -/
def userSetEmployee (P : DateParser) (today : CalDate) (fuel : Nat)
    (s : UIState) (v : String) : UIState :=
  if v == s.employeeId then s
  else settle P today fuel s { s with employeeId := v }

/-- User event: choosing a service. -/
def userSetService (P : DateParser) (today : CalDate) (fuel : Nat)
    (s : UIState) (v : String) : UIState :=
  if v == s.serviceId then s
  else settle P today fuel s { s with serviceId := v }

/-- User event: clicking an enabled calendar day (the `monthDays` `Date`
objects are stable per month, so a same-value click bails out). -/
def userSetDate (P : DateParser) (today : CalDate) (fuel : Nat)
    (s : UIState) (d : CalDate) : UIState :=
  if some d == s.selectedDate then s
  else settle P today fuel s { s with selectedDate := some d }

/-! ### Validation, submission and the fetch error path -/

/-- The `canReserve` validation (source lines 322-323); JS truthiness of
the string fields and the date. -/
def canReserve (s : UIState) : Bool :=
  s.name != "" && s.phone != "" && s.serviceId != "" && s.selectedSlot != "" &&
  s.selectedDate.isSome && s.employeeId != "" && !s.submitting

/-- Result of one availability request as seen by the `catch` of
`fetchMonthAvailability`: a parsed response body, or an exception carrying
its `name` and optional `message` (a cancellation surfaces as
`name = "AbortError"`). -/
inductive FetchOutcome where
  | success (resp : AvailabilityResponse)
  | failure (name : String) (message : Option String)

/-- The success-path normalization (source lines 150-153):
`days.map(d => ({ ...d, date: toKey(d.date) }))`. -/
def normalizeSnap (P : DateParser) (resp : AvailabilityResponse) :
    Option AvailabilityResponse :=
  match resp.days.mapM (fun d =>
      (toKey P (.str d.date)).map (fun k => { d with date := k })) with
  | none => none
  | some days => some { resp with days := days }

/-- One complete run of `fetchMonthAvailability` (source lines 136-161)
for a given request outcome.  A `toKey` throw inside the
`setAvailability` argument is caught by the same `catch` (date-fns throws
a `RangeError` whose message is "Invalid time value"). -/
def fetchStep (P : DateParser) (o : FetchOutcome) (s : UIState) : UIState :=
  let s1 := { s with loadingAvailability := true, error := "" }
  let s2 :=
    match o with
    | .success resp =>
      match normalizeSnap P resp with
      | some a => { s1 with availability := some a, availGen := s1.availGen + 1 }
      | none => { s1 with error := "Invalid time value" }
    | .failure nm msg =>
      if nm != "AbortError" then
        { s1 with error := msg.getD "Failed to load availability" }
      else s1
  { s2 with loadingAvailability := false }

/-- Outcome of the `POST /appointments` call. -/
inductive SubmitOutcome where
  | posted (refetch : FetchOutcome)
  | postFailure (message : Option String)

/-- Result of `handleSubmit`: the final state and the months re-fetched
during the submission, in order. -/
structure SubmitResult where
  state : UIState
  fetchedMonths : List String
deriving DecidableEq, Repr

/-- The `handleSubmit` flow (source lines 325-357): clear the error, bail
out unless `canReserve`, post, re-fetch the displayed month, and clear
slot and note on success; surface the message on failure; `finally`
clears `submitting`. -/
def handleSubmit (P : DateParser) (o : SubmitOutcome) (s : UIState) : SubmitResult :=
  let s0 := { s with error := "" }
  if !(canReserve s0) then ⟨s0, []⟩
  else
    let s1 := { s0 with submitting := true }
    match o with
    | .postFailure msg =>
      let s2 := { s1 with error := msg.getD "No se pudo crear la reserva" }
      ⟨{ s2 with submitting := false }, []⟩
    | .posted fr =>
      let s2 := fetchStep P fr s1
      ⟨{ s2 with selectedSlot := "", note := "", submitting := false }, [s1.month]⟩

/-! ### Specification-side predicates -/

/-- The §4.2 day-availability predicate, written from the specification's
words as a direct re-scan of one day entry (including the past-day
exclusion), to be compared with the code's `availableDaySet`. -/
def specDayAvailable (today : CalDate) (employeeId serviceId : String)
    (c : CalDate) (d : DayAvailability) : Bool :=
  !(CalDate.before c today) &&
  (if employeeId != "" then
    d.employees.any (fun e => idMatches employeeId e.id &&
      (e.slots.length > 0 &&
        (serviceId == "" || e.services.any (fun sv => idMatches serviceId sv.id))))
   else if serviceId != "" then
    d.employees.any (fun e => e.slots.length > 0 &&
      e.services.any (fun sv => idMatches serviceId sv.id))
   else
    d.employees.any (fun e => e.slots.length > 0))

/-- Well-formed snapshot: every stored day key parses as a calendar date
(in particular it is in `yyyy-MM-dd` shape) and the day keys are unique
(the §3 snapshot invariant). -/
@[reducible] def WFSnapshot (a : AvailabilityResponse) : Prop :=
  (∀ d ∈ a.days, (parseKeyShaped d.date).isSome = true) ∧
  (a.days.map (fun d => d.date)).Nodup

/-- Each employee id occurs at most once in a day's employee list (§3:
one entry per employee per day). -/
@[reducible] def UniqueEmployeeIds (a : AvailabilityResponse) : Prop :=
  ∀ d ∈ a.days, (d.employees.map (fun e => e.id)).Nodup

/-- The condition under which the memo loop puts a (normalized) day key
into the available-day set. -/
def dayPass (today : CalDate) (employeeId serviceId : String)
    (d : DayAvailability) : Bool :=
  (match parseKeyShaped d.date with
   | some c => !(CalDate.before c today)
   | none => true) && dayHasAvailability employeeId serviceId d

/-! ### Invariants of the effect cascade -/

/-- What a chain of effect runs can do to the state read at a committed
render: the identity fields are untouched, and the filter/slot fields are
either untouched or cleared (no effect ever writes a non-empty value into
them). -/
def Writes (s s' : UIState) : Prop :=
  s'.name = s.name ∧ s'.phone = s.phone ∧ s'.note = s.note ∧
  s'.month = s.month ∧ s'.availability = s.availability ∧
  s'.availGen = s.availGen ∧
  s'.loadingAvailability = s.loadingAvailability ∧ s'.error = s.error ∧
  s'.submitting = s.submitting ∧
  (s'.serviceId = s.serviceId ∨ s'.serviceId = "") ∧
  (s'.employeeId = s.employeeId ∨ s'.employeeId = "") ∧
  (s'.selectedSlot = s.selectedSlot ∨ s'.selectedSlot = "")

/-- A `new Date(string)` environment whose parses only produce dates that
`format` renders back as a ten-character `yyyy-MM-dd` key (four-digit year,
two-digit month and day fields) — the §6 contract's "any parsable date
string" for a month-of-availability response. -/
@[reducible] def BoundedParser (P : DateParser) : Prop :=
  (∀ s c, P.loose s = some c → c.year ≤ 9999 ∧ c.month ≤ 99 ∧ c.day ≤ 99) ∧
  (∀ s c, P.iso s = some c → c.year ≤ 9999 ∧ c.month ≤ 99 ∧ c.day ≤ 99)

/-! ### Concrete sample data for the witnesses and counterexamples -/

/-- An environment whose `new Date(string)` parsing always yields an
Invalid Date: only the `yyyy-MM-dd` fast path of `toKey` succeeds. -/
def noParse : DateParser := ⟨fun _ => none, fun _ => none⟩

def svcCut : Service := ⟨1, "cut", none⟩

def svcColor : Service := ⟨2, "color", none⟩

def empAna : EmployeeAvailability := ⟨1, "Ana", none, [svcCut], ["09:00", "10:00"]⟩

def empBea : EmployeeAvailability := ⟨2, "Bea", none, [svcColor], ["14:00"]⟩

/-- March 10: Ana (cut, two slots) and Bea (color, one slot). -/
def day10 : DayAvailability := ⟨"2025-03-10", [empAna, empBea]⟩

def snap0 : AvailabilityResponse := ⟨1, "2025-03", [day10]⟩

/-- "Today" for the sample scenarios: 2025-03-05. -/
def t0 : CalDate := ⟨2025, 3, 5⟩

/-- Committed state: March 10 selected, Bea and her color service chosen,
the 14:00 slot picked, the March snapshot loaded. -/
def st0 : UIState :=
  ⟨"n", "p", "", "2", "2", "14:00", "2025-03", some ⟨2025, 3, 10⟩, some snap0, 1,
    false, "", false, false⟩

/-- Like `st0` but with no employee and no slot chosen yet. -/
def st1 : UIState :=
  ⟨"n", "p", "", "2", "", "", "2025-03", some ⟨2025, 3, 10⟩, some snap0, 1,
    false, "", false, false⟩

/-- `st0` with the selected date moved off the snapshot's only day. -/
def st3 : UIState := { st0 with selectedDate := some ⟨2025, 3, 11⟩ }

/-- The derived render values of `st3` under `noParse`/`t0`. -/
def D2w : Derived :=
  ⟨[("2025-03-10", day10)], ["2025-03-10"], some ⟨2025, 3, 10⟩, none⟩

/-- A day entry with a duplicated employee id: the first entry for id 1
has no slots, the second has a slot and offers a service. -/
def dupDay : DayAvailability :=
  ⟨"2025-03-10", [⟨1, "Ana", none, [], []⟩, ⟨1, "Dup", none, [svcCut], ["09:00"]⟩]⟩

def dupSnap : AvailabilityResponse := ⟨1, "2025-03", [dupDay]⟩

/-- A snapshot holding a day strictly before `t0` with open slots. -/
def dayPast : DayAvailability := ⟨"2025-03-01", [empAna]⟩

def snapP : AvailabilityResponse := ⟨1, "2025-03", [dayPast, day10]⟩

/-- Ana's March 12 entry: her service listed but zero open slots. -/
def empAnaFree : EmployeeAvailability := ⟨1, "Ana", none, [svcCut], []⟩

def day12 : DayAvailability := ⟨"2025-03-12", [empAnaFree, empBea]⟩

def snap2 : AvailabilityResponse := ⟨1, "2025-03", [day10, day12]⟩

/-- Committed state on `snap2`: March 12 selected, no filters yet. -/
def st2 : UIState :=
  ⟨"n", "p", "", "", "", "", "2025-03", some ⟨2025, 3, 12⟩, some snap2, 1,
    false, "", false, false⟩

theorem numCharsAux_congr : ∀ (f1 f2 n : Nat), n < f1 → n < f2 →
    numCharsAux f1 n = numCharsAux f2 n
  | 0, _, _, h1, _ => absurd h1 (by omega)
  | _ + 1, 0, _, _, h2 => absurd h2 (by omega)
  | f1 + 1, f2 + 1, n, h1, h2 => by
    simp only [numCharsAux]
    split
    · rfl
    · next h10 =>
      have hd : n / 10 < n := Nat.div_lt_self (by omega) (by omega)
      rw [numCharsAux_congr f1 f2 (n / 10) (by omega) (by omega)]

theorem numChars_eq (n : Nat) : numChars n =
    if n < 10 then [Char.ofNat (48 + n)]
    else numChars (n / 10) ++ [Char.ofNat (48 + n % 10)] := by
  show numCharsAux (n + 1) n = _
  simp only [numCharsAux]
  split
  · rfl
  · next h10 =>
    have hd : n / 10 < n := Nat.div_lt_self (by omega) (by omega)
    rw [numCharsAux_congr n (n / 10 + 1) (n / 10) (by omega) (by omega)]
    rfl

/-! ### Basic facts about characters, digit strings and the key order -/

theorem char_eq_of_toNat_eq {a b : Char} (h : a.toNat = b.toNat) : a = b :=
  Char.eq_of_val_eq (UInt32.ext h)

theorem charLtB_irrefl (a : Char) : charLtB a a = false := by
  simp [charLtB]

theorem charLtB_trans {a b c : Char} (h1 : charLtB a b = true)
    (h2 : charLtB b c = true) : charLtB a c = true := by
  simp only [charLtB, decide_eq_true_eq] at *
  omega

theorem char_eq_of_not_lt {a b : Char} (h1 : charLtB a b = false)
    (h2 : charLtB b a = false) : a = b := by
  apply char_eq_of_toNat_eq
  simp only [charLtB, decide_eq_false_iff_not, Nat.not_lt] at h1 h2
  omega

theorem listLtB_irrefl : ∀ (l : List Char), listLtB l l = false
  | [] => rfl
  | a :: as => by
    simp [listLtB, charLtB_irrefl, listLtB_irrefl as]

theorem charLtB_cases (a b : Char) : charLtB a b = true ∨
    (charLtB a b = false ∧ charLtB b a = true) ∨
    (charLtB a b = false ∧ charLtB b a = false ∧ a = b) := by
  rcases hab : charLtB a b with _ | _
  · rcases hba : charLtB b a with _ | _
    · exact Or.inr (Or.inr ⟨rfl, rfl, char_eq_of_not_lt hab hba⟩)
    · exact Or.inr (Or.inl ⟨rfl, rfl⟩)
  · exact Or.inl rfl

theorem listLtB_trans : ∀ (l1 l2 l3 : List Char), listLtB l1 l2 = true →
    listLtB l2 l3 = true → listLtB l1 l3 = true
  | [], [], _, h1, _ => by simp [listLtB] at h1
  | [], _ :: _, [], _, h2 => by simp [listLtB] at h2
  | [], _ :: _, _ :: _, _, _ => rfl
  | _ :: _, [], _, h1, _ => by simp [listLtB] at h1
  | _ :: _, _ :: _, [], _, h2 => by simp [listLtB] at h2
  | a :: as, b :: bs, c :: cs, h1, h2 => by
    rcases charLtB_cases a b with hab | ⟨hab, hba⟩ | ⟨hab, hba, rfl⟩
    · rcases charLtB_cases b c with hbc | ⟨hbc, hcb⟩ | ⟨hbc, hcb, rfl⟩
      · simp [listLtB, charLtB_trans hab hbc]
      · simp [listLtB, hbc, hcb] at h2
      · simp [listLtB, hab]
    · simp [listLtB, hab, hba] at h1
    · rcases charLtB_cases a c with hac | ⟨hac, hca⟩ | ⟨hac, hca, rfl⟩
      · simp [listLtB, hac]
      · simp [listLtB, hac, hca] at h2
      · simp only [listLtB, charLtB_irrefl, Bool.false_eq_true, if_false] at h1 h2 ⊢
        exact listLtB_trans as bs cs h1 h2

theorem keyLt_irrefl (s : String) : keyLt s s = false :=
  listLtB_irrefl s.data

theorem keyLt_trans {s t u : String} (h1 : keyLt s t = true)
    (h2 : keyLt t u = true) : keyLt s u = true :=
  listLtB_trans s.data t.data u.data h1 h2

theorem mem_insertKey {x k : String} : ∀ (l : List String),
    x ∈ insertKey k l ↔ x = k ∨ x ∈ l
  | [] => by simp [insertKey]
  | y :: ys => by
    simp only [insertKey]
    split
    · simp [List.mem_cons]
    · rw [List.mem_cons, List.mem_cons, mem_insertKey ys]
      tauto

theorem mem_sortKeys {x : String} : ∀ (l : List String), x ∈ sortKeys l ↔ x ∈ l
  | [] => Iff.rfl
  | y :: ys => by
    simp only [sortKeys]
    rw [mem_insertKey, List.mem_cons, mem_sortKeys ys]

theorem sortKeys_eq_nil {l : List String} (h : sortKeys l = []) : l = [] := by
  cases l with
  | nil => rfl
  | cons y ys =>
    exfalso
    have : y ∈ sortKeys (y :: ys) := (mem_sortKeys _).mpr (by simp)
    rw [h] at this
    simp at this

theorem sortKeys_head_min : ∀ (l : List String) (hd : String) (tl : List String),
    sortKeys l = hd :: tl → ∀ x ∈ l, keyLt x hd = false
  | [], _, _, hl, x, hx => by simp at hx
  | a :: as, hd, tl, hl, x, hx => by
    simp only [sortKeys] at hl
    rcases hs : sortKeys as with _ | ⟨y, ys⟩
    · have has : as = [] := sortKeys_eq_nil hs
      subst has
      rw [hs] at hl
      simp only [insertKey] at hl
      injection hl with he1 he2
      simp only [List.mem_singleton] at hx
      subst hx
      rw [← he1]
      exact keyLt_irrefl _
    · rw [hs] at hl
      simp only [insertKey] at hl
      have hymin : ∀ z ∈ as, keyLt z y = false := fun z hz =>
        sortKeys_head_min as y ys hs z hz
      split at hl
      · next hay =>
        injection hl with he1 he2
        rw [← he1]
        rcases List.mem_cons.mp hx with hx2 | hx2
        · subst hx2; exact keyLt_irrefl _
        · rcases hxa : keyLt x a with _ | _
          · rfl
          · exfalso
            have hxy := keyLt_trans hxa hay
            rw [hymin x hx2] at hxy
            simp at hxy
      · next hay =>
        injection hl with he1 he2
        rw [← he1]
        rcases List.mem_cons.mp hx with hx2 | hx2
        · subst hx2
          simpa using hay
        · exact hymin x hx2

/-! ### Digit strings: values, order, padding -/

theorem isDigitChar_bounds {c : Char} (h : isDigitChar c = true) :
    48 ≤ c.toNat ∧ c.toNat ≤ 57 := by
  simpa [isDigitChar] using h

theorem digitVal_lt_ten {c : Char} (h : isDigitChar c = true) : digitVal c < 10 := by
  have := isDigitChar_bounds h
  unfold digitVal
  omega

theorem digit_eq_of_val_eq {a b : Char} (ha : isDigitChar a = true)
    (hb : isDigitChar b = true) (h : digitVal a = digitVal b) : a = b := by
  have h1 := isDigitChar_bounds ha
  have h2 := isDigitChar_bounds hb
  apply char_eq_of_toNat_eq
  unfold digitVal at h
  omega

theorem charLtB_of_val_lt {a b : Char} (ha : isDigitChar a = true)
    (hb : isDigitChar b = true) (h : digitVal a < digitVal b) : charLtB a b = true := by
  have h1 := isDigitChar_bounds ha
  have h2 := isDigitChar_bounds hb
  simp only [charLtB, decide_eq_true_eq]
  unfold digitVal at h
  omega

theorem digitsVal_lt_pow : ∀ (l : List Char), (∀ c ∈ l, isDigitChar c = true) →
    digitsVal l < 10 ^ l.length
  | [], _ => by simp [digitsVal]
  | c :: cs, h => by
    have hc := digitVal_lt_ten (h c (by simp))
    have ih := digitsVal_lt_pow cs (fun x hx => h x (by simp [hx]))
    simp only [digitsVal, List.length_cons]
    have hp : 10 ^ (cs.length + 1) = 10 * 10 ^ cs.length := by ring
    have hb : digitVal c * 10 ^ cs.length ≤ 9 * 10 ^ cs.length :=
      Nat.mul_le_mul_right _ (by omega)
    omega

theorem mul_add_eq_cancel {X a b r1 r2 : Nat} (hr1 : r1 < X) (hr2 : r2 < X)
    (h : a * X + r1 = b * X + r2) : a = b ∧ r1 = r2 := by
  rcases Nat.lt_trichotomy a b with h' | h' | h'
  · exfalso
    have e : a * X + X ≤ b * X := by
      have := Nat.mul_le_mul_right X (show a + 1 ≤ b by omega)
      simpa [Nat.succ_mul] using this
    omega
  · subst h'
    omega
  · exfalso
    have e : b * X + X ≤ a * X := by
      have := Nat.mul_le_mul_right X (show b + 1 ≤ a by omega)
      simpa [Nat.succ_mul] using this
    omega

theorem mul_add_lt_of_lt {X a b r1 r2 : Nat} (hr1 : r1 < X) (h : a < b) :
    a * X + r1 < b * X + r2 := by
  have e : a * X + X ≤ b * X := by
    have := Nat.mul_le_mul_right X (show a + 1 ≤ b by omega)
    simpa [Nat.succ_mul] using this
  omega

theorem digitsVal_inj : ∀ (l1 l2 : List Char), l1.length = l2.length →
    (∀ c ∈ l1, isDigitChar c = true) → (∀ c ∈ l2, isDigitChar c = true) →
    digitsVal l1 = digitsVal l2 → l1 = l2
  | [], [], _, _, _, _ => rfl
  | [], _ :: _, hlen, _, _, _ => by simp at hlen
  | _ :: _, [], hlen, _, _, _ => by simp at hlen
  | a :: as, b :: bs, hlen, h1, h2, hv => by
    have hlen' : as.length = bs.length := by simpa using hlen
    simp only [digitsVal, hlen'] at hv
    have hva : digitsVal as < 10 ^ bs.length := by
      rw [← hlen']
      exact digitsVal_lt_pow as (fun x hx => h1 x (by simp [hx]))
    have hvb : digitsVal bs < 10 ^ bs.length :=
      digitsVal_lt_pow bs (fun x hx => h2 x (by simp [hx]))
    obtain ⟨hab, hres⟩ := mul_add_eq_cancel hva hvb hv
    have : a = b :=
      digit_eq_of_val_eq (h1 a (by simp)) (h2 b (by simp)) hab
    subst this
    rw [digitsVal_inj as bs hlen' (fun x hx => h1 x (by simp [hx]))
      (fun x hx => h2 x (by simp [hx])) hres]

theorem listLtB_of_digitsVal_lt : ∀ (l1 l2 : List Char), l1.length = l2.length →
    (∀ c ∈ l1, isDigitChar c = true) → (∀ c ∈ l2, isDigitChar c = true) →
    digitsVal l1 < digitsVal l2 → listLtB l1 l2 = true
  | [], [], _, _, _, hv => by simp [digitsVal] at hv
  | [], _ :: _, hlen, _, _, _ => by simp at hlen
  | _ :: _, [], hlen, _, _, _ => by simp at hlen
  | a :: as, b :: bs, hlen, h1, h2, hv => by
    have hlen' : as.length = bs.length := by simpa using hlen
    simp only [digitsVal, hlen'] at hv
    have hva : digitsVal as < 10 ^ bs.length := by
      rw [← hlen']
      exact digitsVal_lt_pow as (fun x hx => h1 x (by simp [hx]))
    have hvb : digitsVal bs < 10 ^ bs.length :=
      digitsVal_lt_pow bs (fun x hx => h2 x (by simp [hx]))
    rcases Nat.lt_trichotomy (digitVal a) (digitVal b) with h' | h' | h'
    · have := charLtB_of_val_lt (h1 a (by simp)) (h2 b (by simp)) h'
      simp [listLtB, this]
    · have heq : a = b :=
        digit_eq_of_val_eq (h1 a (by simp)) (h2 b (by simp)) h'
      subst heq
      have hrest : digitsVal as < digitsVal bs := by omega
      simp only [listLtB, charLtB_irrefl, if_false]
      exact listLtB_of_digitsVal_lt as bs hlen' (fun x hx => h1 x (by simp [hx]))
        (fun x hx => h2 x (by simp [hx])) hrest
    · exfalso
      have := @mul_add_lt_of_lt (10 ^ bs.length) (digitVal b) (digitVal a)
        (digitsVal bs) (digitsVal as) hvb h'
      omega

theorem listLtB_append_left : ∀ (xs xs' ys ys' : List Char), xs.length = xs'.length →
    listLtB xs xs' = true → listLtB (xs ++ ys) (xs' ++ ys') = true
  | [], [], _, _, _, h => by simp [listLtB] at h
  | [], _ :: _, _, _, hlen, _ => by simp at hlen
  | _ :: _, [], _, _, hlen, _ => by simp at hlen
  | a :: as, b :: bs, ys, ys', hlen, h => by
    simp only [List.cons_append, listLtB] at h ⊢
    rcases hab : charLtB a b with _ | _ <;> rw [hab] at h
    · rcases hba : charLtB b a with _ | _ <;> rw [hba] at h
      · exact listLtB_append_left as bs ys ys' (by simpa using hlen) h
      · simp at h
    · rfl

theorem listLtB_append_right : ∀ (xs ys ys' : List Char),
    listLtB ys ys' = true → listLtB (xs ++ ys) (xs ++ ys') = true
  | [], _, _, h => h
  | a :: as, ys, ys', h => by
    simp only [List.cons_append, listLtB, charLtB_irrefl, if_false]
    exact listLtB_append_right as ys ys' h

/-! ### Number formatting and its inverse on fixed-width digit strings -/

theorem numChars_all_digits (n : Nat) : ∀ c ∈ numChars n, isDigitChar c = true := by
  induction n using Nat.strong_induction_on with
  | _ n ih =>
    rw [numChars_eq]
    split
    · next hn =>
      intro c hc
      simp only [List.mem_singleton] at hc
      subst hc
      interval_cases n <;> decide
    · next hn =>
      intro c hc
      rw [List.mem_append] at hc
      rcases hc with hc | hc
      · exact ih (n / 10) (Nat.div_lt_self (by omega) (by omega)) c hc
      · simp only [List.mem_singleton] at hc
        subst hc
        have hr : n % 10 < 10 := Nat.mod_lt _ (by omega)
        generalize n % 10 = r at hr ⊢
        interval_cases r <;> decide

theorem digitsVal_append : ∀ (l1 l2 : List Char),
    digitsVal (l1 ++ l2) = digitsVal l1 * 10 ^ l2.length + digitsVal l2
  | [], l2 => by simp [digitsVal]
  | c :: cs, l2 => by
    simp only [List.cons_append, digitsVal, digitsVal_append cs l2,
      List.length_append, List.append_eq]
    ring

theorem digitsVal_numChars (n : Nat) : digitsVal (numChars n) = n := by
  induction n using Nat.strong_induction_on with
  | _ n ih =>
    rw [numChars_eq]
    split
    · next hn =>
      simp only [digitsVal, List.length_nil, pow_zero, mul_one, Nat.add_zero]
      unfold digitVal
      interval_cases n <;> decide
    · next hn =>
      rw [digitsVal_append, ih (n / 10) (Nat.div_lt_self (by omega) (by omega))]
      simp only [digitsVal, List.length_nil, List.length_cons, pow_zero, mul_one,
        Nat.add_zero, pow_one]
      unfold digitVal
      have hr : n % 10 < 10 := Nat.mod_lt _ (by omega)
      have hc : (Char.ofNat (48 + n % 10)).toNat = 48 + n % 10 := by
        generalize n % 10 = r at hr ⊢
        interval_cases r <;> decide
      rw [hc]
      omega

theorem numChars_length_le (n : Nat) : ∀ (w : Nat), 1 ≤ w → n < 10 ^ w →
    (numChars n).length ≤ w := by
  induction n using Nat.strong_induction_on with
  | _ n ih =>
    intro w hw hn
    rw [numChars_eq]
    split
    · simpa using hw
    · next h10 =>
      have hw2 : 2 ≤ w := by
        rcases Nat.lt_or_ge w 2 with h | h
        · interval_cases w
          all_goals simp_all
          all_goals omega
        · exact h
      simp only [List.length_append, List.length_cons, List.length_nil]
      have hdiv : n / 10 < 10 ^ (w - 1) := by
        rw [Nat.div_lt_iff_lt_mul (by omega)]
        have : 10 ^ (w - 1) * 10 = 10 ^ w := by
          rw [← pow_succ]
          congr 1
          omega
        omega
      have := ih (n / 10) (Nat.div_lt_self (by omega) (by omega)) (w - 1)
        (by omega) hdiv
      omega

theorem padChars_length {w n : Nat} (hw : 1 ≤ w) (hn : n < 10 ^ w) :
    (padChars w n).length = w := by
  unfold padChars
  rw [List.length_append, List.length_replicate]
  have := numChars_length_le n w hw hn
  omega

theorem padChars_all_digits (w n : Nat) : ∀ c ∈ padChars w n, isDigitChar c = true := by
  intro c hc
  unfold padChars at hc
  rw [List.mem_append] at hc
  rcases hc with hc | hc
  · rw [List.eq_of_mem_replicate hc]
    decide
  · exact numChars_all_digits n c hc

theorem digitsVal_replicate_zero (k : Nat) :
    digitsVal (List.replicate k '0') = 0 := by
  induction k with
  | zero => rfl
  | succ k ih => simp [List.replicate, digitsVal, ih, digitVal]

theorem digitsVal_padChars (w n : Nat) : digitsVal (padChars w n) = n := by
  unfold padChars
  rw [digitsVal_append, digitsVal_replicate_zero, digitsVal_numChars]
  simp

theorem padChars_digitsVal {w : Nat} {l : List Char} (hw : 1 ≤ w)
    (hl : l.length = w) (hd : ∀ c ∈ l, isDigitChar c = true) :
    padChars w (digitsVal l) = l := by
  have hv : digitsVal l < 10 ^ w := hl ▸ digitsVal_lt_pow l hd
  apply digitsVal_inj
  · rw [padChars_length hw hv, hl]
  · exact padChars_all_digits _ _
  · exact hd
  · exact digitsVal_padChars w (digitsVal l)

/-! ### Inversion of `parseKeyShaped` and facts about `formatYMD` -/

theorem parseKeyShaped_inv {s : String} {dt : CalDate}
    (hp : parseKeyShaped s = some dt) :
    ∃ c1 c2 c3 c4 c5 c6 c7 c8,
      s.data = [c1, c2, c3, c4, '-', c5, c6, '-', c7, c8] ∧
      (∀ x ∈ [c1, c2, c3, c4, c5, c6, c7, c8], isDigitChar x = true) ∧
      dt.year = digitsVal [c1, c2, c3, c4] ∧
      dt.month = digitsVal [c5, c6] ∧ dt.day = digitsVal [c7, c8] ∧
      1 ≤ dt.month ∧ dt.month ≤ 12 ∧ 1 ≤ dt.day ∧
      dt.day ≤ daysInMonth dt.year dt.month := by
  unfold parseKeyShaped at hp
  split at hp
  case h_2 => exact absurd hp (by simp)
  case h_1 c1 c2 c3 c4 d1 c5 c6 d2 c7 c8 heq =>
    split at hp
    case isFalse => exact absurd hp (by simp)
    case isTrue hdig =>
      split at hp
      case isFalse => exact absurd hp (by simp)
      case isTrue hrange =>
        injection hp with hdt
        subst hdt
        simp only [Bool.and_eq_true, beq_iff_eq, decide_eq_true_eq] at hdig hrange
        obtain ⟨⟨⟨⟨⟨⟨⟨⟨⟨ha, hb⟩, hc⟩, hd⟩, hd1⟩, he⟩, hf⟩, hd2⟩, hg⟩, hh⟩ := hdig
        subst hd1
        subst hd2
        refine ⟨c1, c2, c3, c4, c5, c6, c7, c8, heq, ?_, rfl, rfl, rfl, ?_, ?_, ?_, ?_⟩
        · intro x hx
          simp only [List.mem_cons, List.not_mem_nil, or_false] at hx
          rcases hx with rfl | rfl | rfl | rfl | rfl | rfl | rfl | rfl <;> assumption
        all_goals
          simp only []
          omega

theorem parseKeyShaped_isDateKey {s : String} {dt : CalDate}
    (hp : parseKeyShaped s = some dt) : isDateKey s = true := by
  obtain ⟨c1, c2, c3, c4, c5, c6, c7, c8, heq, hdig, -⟩ := parseKeyShaped_inv hp
  unfold isDateKey
  rw [heq]
  show (isDigitChar c1 && isDigitChar c2 && isDigitChar c3 && isDigitChar c4 &&
    ('-' == '-') && isDigitChar c5 && isDigitChar c6 && ('-' == '-') &&
    isDigitChar c7 && isDigitChar c8) = true
  simp [hdig c1 (by simp), hdig c2 (by simp), hdig c3 (by simp),
    hdig c4 (by simp), hdig c5 (by simp), hdig c6 (by simp),
    hdig c7 (by simp), hdig c8 (by simp)]

theorem formatYMD_of_parseKeyShaped {s : String} {dt : CalDate}
    (hp : parseKeyShaped s = some dt) : formatYMD dt = s := by
  obtain ⟨c1, c2, c3, c4, c5, c6, c7, c8, heq, hdig, hy, hm, hd, -⟩ :=
    parseKeyShaped_inv hp
  have e1 : isDigitChar c1 = true := hdig c1 (by simp)
  have e2 : isDigitChar c2 = true := hdig c2 (by simp)
  have e3 : isDigitChar c3 = true := hdig c3 (by simp)
  have e4 : isDigitChar c4 = true := hdig c4 (by simp)
  have e5 : isDigitChar c5 = true := hdig c5 (by simp)
  have e6 : isDigitChar c6 = true := hdig c6 (by simp)
  have e7 : isDigitChar c7 = true := hdig c7 (by simp)
  have e8 : isDigitChar c8 = true := hdig c8 (by simp)
  have h4 : padChars 4 (digitsVal [c1, c2, c3, c4]) = [c1, c2, c3, c4] :=
    padChars_digitsVal (by omega) (by simp) (fun x hx => by
      simp only [List.mem_cons, List.not_mem_nil, or_false] at hx
      rcases hx with rfl | rfl | rfl | rfl <;> assumption)
  have h2m : padChars 2 (digitsVal [c5, c6]) = [c5, c6] :=
    padChars_digitsVal (by omega) (by simp) (fun x hx => by
      simp only [List.mem_cons, List.not_mem_nil, or_false] at hx
      rcases hx with rfl | rfl <;> assumption)
  have h2d : padChars 2 (digitsVal [c7, c8]) = [c7, c8] :=
    padChars_digitsVal (by omega) (by simp) (fun x hx => by
      simp only [List.mem_cons, List.not_mem_nil, or_false] at hx
      rcases hx with rfl | rfl <;> assumption)
  unfold formatYMD
  rw [hy, hm, hd, h4, h2m, h2d]
  exact congrArg String.mk heq.symm

theorem length_two_exists {l : List Char} (h : l.length = 2) :
    ∃ a b, l = [a, b] := by
  match l, h with
  | [a, b], _ => exact ⟨a, b, rfl⟩

theorem length_four_exists {l : List Char} (h : l.length = 4) :
    ∃ a b c d, l = [a, b, c, d] := by
  match l, h with
  | [a, b, c, d], _ => exact ⟨a, b, c, d, rfl⟩

theorem isDateKey_formatYMD {dt : CalDate} (hy : dt.year ≤ 9999)
    (hm : dt.month ≤ 99) (hd : dt.day ≤ 99) :
    isDateKey (formatYMD dt) = true := by
  have h4len : (padChars 4 dt.year).length = 4 :=
    padChars_length (by omega) (by omega)
  have hmlen : (padChars 2 dt.month).length = 2 :=
    padChars_length (by omega) (by omega)
  have hdlen : (padChars 2 dt.day).length = 2 :=
    padChars_length (by omega) (by omega)
  obtain ⟨a1, a2, a3, a4, he4⟩ := length_four_exists h4len
  obtain ⟨b1, b2, hem⟩ := length_two_exists hmlen
  obtain ⟨d1, d2, hed⟩ := length_two_exists hdlen
  have hdig4 := padChars_all_digits 4 dt.year
  have hdigm := padChars_all_digits 2 dt.month
  have hdigd := padChars_all_digits 2 dt.day
  rw [he4] at hdig4
  rw [hem] at hdigm
  rw [hed] at hdigd
  have hdata : (formatYMD dt).data =
      a1 :: a2 :: a3 :: a4 :: '-' :: b1 :: b2 :: '-' :: d1 :: d2 :: [] := by
    show padChars 4 dt.year ++ '-' :: (padChars 2 dt.month ++ '-' :: padChars 2 dt.day) = _
    rw [he4, hem, hed]
    rfl
  unfold isDateKey
  rw [hdata]
  show (isDigitChar a1 && isDigitChar a2 && isDigitChar a3 && isDigitChar a4 &&
    ('-' == '-') && isDigitChar b1 && isDigitChar b2 && ('-' == '-') &&
    isDigitChar d1 && isDigitChar d2) = true
  simp [hdig4 a1 (by simp), hdig4 a2 (by simp), hdig4 a3 (by simp),
    hdig4 a4 (by simp), hdigm b1 (by simp), hdigm b2 (by simp),
    hdigd d1 (by simp), hdigd d2 (by simp)]

theorem listLtB_cons_same (x : Char) (l1 l2 : List Char)
    (h : listLtB l1 l2 = true) : listLtB (x :: l1) (x :: l2) = true := by
  simp only [listLtB, charLtB_irrefl, Bool.false_eq_true, if_false]
  exact h

theorem keyLt_of_before {s t : String} {c c' : CalDate}
    (hs : parseKeyShaped s = some c) (ht : parseKeyShaped t = some c')
    (hlt : CalDate.before c c' = true) : keyLt s t = true := by
  obtain ⟨a1, a2, a3, a4, a5, a6, a7, a8, hseq, hsdig, hsy, hsm, hsd, -⟩ :=
    parseKeyShaped_inv hs
  obtain ⟨b1, b2, b3, b4, b5, b6, b7, b8, hteq, htdig, hty, htm, htd, -⟩ :=
    parseKeyShaped_inv ht
  have ds4 : ∀ x ∈ [a1, a2, a3, a4], isDigitChar x = true := by
    intro x hx
    apply hsdig
    simp only [List.mem_cons, List.not_mem_nil, or_false] at hx ⊢
    tauto
  have dsm : ∀ x ∈ [a5, a6], isDigitChar x = true := by
    intro x hx
    apply hsdig
    simp only [List.mem_cons, List.not_mem_nil, or_false] at hx ⊢
    tauto
  have dsd : ∀ x ∈ [a7, a8], isDigitChar x = true := by
    intro x hx
    apply hsdig
    simp only [List.mem_cons, List.not_mem_nil, or_false] at hx ⊢
    tauto
  have dt4 : ∀ x ∈ [b1, b2, b3, b4], isDigitChar x = true := by
    intro x hx
    apply htdig
    simp only [List.mem_cons, List.not_mem_nil, or_false] at hx ⊢
    tauto
  have dtm : ∀ x ∈ [b5, b6], isDigitChar x = true := by
    intro x hx
    apply htdig
    simp only [List.mem_cons, List.not_mem_nil, or_false] at hx ⊢
    tauto
  have dtd : ∀ x ∈ [b7, b8], isDigitChar x = true := by
    intro x hx
    apply htdig
    simp only [List.mem_cons, List.not_mem_nil, or_false] at hx ⊢
    tauto
  unfold keyLt
  rw [hseq, hteq]
  show listLtB ([a1, a2, a3, a4] ++ '-' :: ([a5, a6] ++ '-' :: [a7, a8]))
    ([b1, b2, b3, b4] ++ '-' :: ([b5, b6] ++ '-' :: [b7, b8])) = true
  unfold CalDate.before at hlt
  simp only [Bool.or_eq_true, Bool.and_eq_true, decide_eq_true_eq, beq_iff_eq] at hlt
  rw [hsy, hty, hsm, htm, hsd, htd] at hlt
  rcases hlt with hy | ⟨hy, hrest⟩
  · exact listLtB_append_left _ _ _ _ (by simp)
      (listLtB_of_digitsVal_lt _ _ (by simp) ds4 dt4 hy)
  · have he4 : [a1, a2, a3, a4] = [b1, b2, b3, b4] :=
      digitsVal_inj _ _ (by simp) ds4 dt4 hy
    rw [he4]
    apply listLtB_append_right
    apply listLtB_cons_same
    rcases hrest with hm | ⟨hm, hd⟩
    · exact listLtB_append_left _ _ _ _ (by simp)
        (listLtB_of_digitsVal_lt _ _ (by simp) dsm dtm hm)
    · have hem : [a5, a6] = [b5, b6] := digitsVal_inj _ _ (by simp) dsm dtm hm
      rw [hem]
      apply listLtB_append_right
      apply listLtB_cons_same
      exact listLtB_of_digitsVal_lt _ _ (by simp) dsd dtd hd

/-! ### Characterization of the derivation layer -/

theorem toKey_shaped {P : DateParser} {s : String} (h : isDateKey s = true) :
    toKey P (.str s) = some s := by
  simp only [toKey]
  rw [if_pos h]

theorem mem_setAdd {s : List String} {k x : String} :
    x ∈ setAdd s k ↔ x ∈ s ∨ x = k := by
  unfold setAdd
  split
  · next hc =>
    constructor
    · exact Or.inl
    · rintro (h | rfl)
      · exact h
      · simpa using hc
  · simp [List.mem_append]

theorem beq_symm_false {κ : Type} [BEq κ] [LawfulBEq κ] {a b : κ}
    (h : (a == b) = false) : (b == a) = false := by
  rcases hba : b == a with _ | _
  · rfl
  · have : b = a := eq_of_beq hba
    subst this
    simp at h

theorem mapGet_nil {κ α : Type} [BEq κ] (k : κ) :
    mapGet ([] : List (κ × α)) k = none := rfl

theorem mapGet_cons {κ α : Type} [BEq κ] (k0 : κ) (v0 : α)
    (rest : List (κ × α)) (k : κ) :
    mapGet ((k0, v0) :: rest) k =
      (if (k0 == k) = true then some v0 else mapGet rest k) := by
  simp only [mapGet, List.find?_cons]
  rcases h : k0 == k with _ | _
  · simp [h]
  · simp [h]

theorem mapGet_upsert {κ α : Type} [BEq κ] [LawfulBEq κ] :
    ∀ (m : List (κ × α)) (k k' : κ) (v : α),
    mapGet (upsert m k v) k' =
      if (k' == k) = true then some v else mapGet m k'
  | [], k, k', v => by
    simp only [upsert]
    rw [mapGet_cons, mapGet_nil]
    rcases h : k == k' with _ | _
    · simp [h, beq_symm_false h]
    · have he := eq_of_beq h
      subst he
      simp
  | (k0, v0) :: rest, k, k', v => by
    simp only [upsert]
    split
    · next hk0 =>
      have hk0e : k0 = k := eq_of_beq hk0
      subst hk0e
      rw [mapGet_cons, mapGet_cons]
      rcases h : k0 == k' with _ | _
      · simp [h, beq_symm_false h]
      · have he := eq_of_beq h
        subst he
        simp
    · next hk0 =>
      have hk0f : (k0 == k) = false := by
        rcases h2 : k0 == k with _ | _
        · rfl
        · exact absurd h2 hk0
      rw [mapGet_cons, mapGet_cons]
      rcases h : k0 == k' with _ | _
      · simp only [h, Bool.false_eq_true, if_false]
        rw [mapGet_upsert rest k k' v]
      · have hke : k0 = k' := eq_of_beq h
        subst hke
        simp [hk0f]

theorem dayIndexStep_shaped {P : DateParser} {today : CalDate}
    {eId sId : String} {acc : List (String × DayAvailability) × List String}
    {d : DayAvailability} (hd : isDateKey d.date = true) :
    dayIndexStep P today eId sId acc d =
      some (upsert acc.1 d.date d,
        if dayPass today eId sId d = true then setAdd acc.2 d.date
        else acc.2) := by
  rcases hc : parseKeyShaped d.date with _ | c
  · rcases hh : dayHasAvailability eId sId d with _ | _ <;>
      simp [dayIndexStep, toKey_shaped hd, dayPass, hc, hh]
  · rcases hb : CalDate.before c today with _ | _ <;>
      rcases hh : dayHasAvailability eId sId d with _ | _ <;>
        simp [dayIndexStep, toKey_shaped hd, dayPass, hc, hb, hh]

theorem dayIndexFold_spec (P : DateParser) (today : CalDate)
    (eId sId : String) :
    ∀ (days : List DayAvailability)
      (acc : List (String × DayAvailability) × List String),
    (∀ d ∈ days, isDateKey d.date = true) →
    ∃ m daySet,
      days.foldlM (dayIndexStep P today eId sId) acc = some (m, daySet) ∧
      (∀ k, k ∈ daySet ↔ k ∈ acc.2 ∨
        ∃ d ∈ days, d.date = k ∧ dayPass today eId sId d = true) ∧
      m = days.foldl (fun mm d => upsert mm d.date d) acc.1
  | [], acc, _ => by
    refine ⟨acc.1, acc.2, rfl, fun k => ?_, rfl⟩
    simp
  | d :: ds, acc, hsh => by
    have hd : isDateKey d.date = true := hsh d (by simp)
    obtain ⟨m, daySet, hfold, hset, hmap⟩ :=
      dayIndexFold_spec P today eId sId ds
        (upsert acc.1 d.date d,
          if dayPass today eId sId d = true then setAdd acc.2 d.date
          else acc.2)
        (fun x hx => hsh x (by simp [hx]))
    refine ⟨m, daySet, ?_, ?_, ?_⟩
    · rw [List.foldlM_cons, dayIndexStep_shaped hd]
      exact hfold
    · intro k
      rw [hset k]
      rcases hp : dayPass today eId sId d with _ | _ <;>
        simp only [hp, Bool.false_eq_true, if_false, if_true]
      · constructor
        · rintro (hk | ⟨d', hd', hdk, hp'⟩)
          · exact Or.inl hk
          · exact Or.inr ⟨d', List.mem_cons_of_mem _ hd', hdk, hp'⟩
        · rintro (hk | ⟨d', hd', hdk, hp'⟩)
          · exact Or.inl hk
          · rcases List.mem_cons.mp hd' with rfl | hd2
            · rw [hp] at hp'
              exact absurd hp' (by simp)
            · exact Or.inr ⟨d', hd2, hdk, hp'⟩
      · constructor
        · rintro (hk | ⟨d', hd', hdk, hp'⟩)
          · rcases mem_setAdd.mp hk with hk2 | rfl
            · exact Or.inl hk2
            · exact Or.inr ⟨d, by simp, rfl, hp⟩
          · exact Or.inr ⟨d', List.mem_cons_of_mem _ hd', hdk, hp'⟩
        · rintro (hk | ⟨d', hd', hdk, hp'⟩)
          · exact Or.inl (mem_setAdd.mpr (Or.inl hk))
          · rcases List.mem_cons.mp hd' with rfl | hd2
            · subst hdk
              exact Or.inl (mem_setAdd.mpr (Or.inr rfl))
            · exact Or.inr ⟨d', hd2, hdk, hp'⟩
    · rw [List.foldl_cons]
      exact hmap

theorem buildDayIndex_spec (P : DateParser) (today : CalDate)
    {a : AvailabilityResponse} (eId sId : String)
    (hsh : ∀ d ∈ a.days, isDateKey d.date = true) :
    ∃ m daySet,
      buildDayIndex P today (some a) eId sId = some (m, daySet) ∧
      (∀ k, k ∈ daySet ↔
        ∃ d ∈ a.days, d.date = k ∧ dayPass today eId sId d = true) ∧
      m = a.days.foldl (fun mm d => upsert mm d.date d) [] := by
  obtain ⟨m, daySet, hfold, hset, hmap⟩ :=
    dayIndexFold_spec P today eId sId a.days ([], []) hsh
  refine ⟨m, daySet, hfold, fun k => ?_, hmap⟩
  rw [hset k]
  simp

theorem mapGet_foldl_upsert :
    ∀ (days : List DayAvailability) (m0 : List (String × DayAvailability))
      (k : String), (days.map (fun d => d.date)).Nodup →
    mapGet (days.foldl (fun mm d => upsert mm d.date d) m0) k =
      (match days.find? (fun d => d.date == k) with
       | some d => some d
       | none => mapGet m0 k)
  | [], m0, k, _ => by simp [List.find?]
  | d :: ds, m0, k, hnd => by
    rw [List.foldl_cons]
    have hnd' : (ds.map (fun d2 => d2.date)).Nodup := by
      rw [List.map_cons, List.nodup_cons] at hnd
      exact hnd.2
    rw [mapGet_foldl_upsert ds (upsert m0 d.date d) k hnd']
    rw [List.find?_cons]
    rcases hdk : d.date == k with _ | _
    · simp only [hdk]
      rcases hfind : ds.find? (fun d2 => d2.date == k) with _ | d2 <;>
        simp only [hfind]
      · rw [mapGet_upsert]
        rw [if_neg]
        simp only [Bool.not_eq_true]
        exact beq_symm_false hdk
    · simp only [hdk]
      have hk : d.date = k := by simpa using hdk
      have hnotin : ∀ d2 ∈ ds, ¬(d2.date == k) = true := by
        intro d2 hd2 hbeq
        have he : d2.date = k := by simpa using hbeq
        rw [List.map_cons, List.nodup_cons] at hnd
        refine hnd.1 ?_
        rw [hk]
        exact he ▸ List.mem_map_of_mem (fun x => x.date) hd2
      have hfind : ds.find? (fun d2 => d2.date == k) = none :=
        List.find?_eq_none.mpr hnotin
      simp only [hfind]
      rw [mapGet_upsert]
      rw [if_pos (by simp [hk])]

theorem daysByKey_spec {P : DateParser} {today : CalDate}
    {a : AvailabilityResponse} {eId sId : String}
    {m : List (String × DayAvailability)} {daySet : List String}
    (hb : buildDayIndex P today (some a) eId sId = some (m, daySet))
    (hsh : ∀ d ∈ a.days, isDateKey d.date = true)
    (hnd : (a.days.map (fun d => d.date)).Nodup) (k : String) :
    mapGet m k = a.days.find? (fun d => d.date == k) := by
  obtain ⟨m2, s2, hb2, -, hmap⟩ := buildDayIndex_spec P today eId sId hsh
  rw [hb] at hb2
  injection hb2 with hb3
  injection hb3 with hm hs
  subst hm
  rw [hmap, mapGet_foldl_upsert a.days [] k hnd]
  rcases hf : a.days.find? (fun d => d.date == k) with _ | d <;> simp only [hf]
  rfl

theorem natStr_inj {a b : Nat} (h : natStr a = natStr b) : a = b := by
  have h2 : numChars a = numChars b := by injection h
  calc a = digitsVal (numChars a) := (digitsVal_numChars a).symm
    _ = digitsVal (numChars b) := by rw [h2]
    _ = b := digitsVal_numChars b

theorem idMatches_inj {f : String} {i j : Nat} (hi : idMatches f i = true)
    (hj : idMatches f j = true) : i = j := by
  unfold idMatches at hi hj
  exact natStr_inj (by rw [eq_of_beq hi, eq_of_beq hj])

/-- With unique employee ids, the existential re-scan of a day's employee
list agrees with the `find?`-based code path. -/
theorem any_eq_find?_of_uniq {es : List EmployeeAvailability} {eId : String}
    (p : EmployeeAvailability → Bool)
    (hnd : (es.map (fun e => e.id)).Nodup) :
    es.any (fun e => idMatches eId e.id && p e) =
      (match es.find? (fun e => idMatches eId e.id) with
       | some emp => p emp
       | none => false) := by
  induction es with
  | nil => rfl
  | cons e es ih =>
    have hnd' : (es.map (fun e2 => e2.id)).Nodup := by
      rw [List.map_cons, List.nodup_cons] at hnd
      exact hnd.2
    rw [List.any_cons, List.find?_cons]
    rcases hm : idMatches eId e.id with _ | _
    · simp only [hm, Bool.false_and, Bool.false_or]
      exact ih hnd'
    · simp only [hm, Bool.true_and]
      rcases hp : p e with _ | _
      · simp only [Bool.false_or]
        rw [ih hnd']
        rcases hf : es.find? (fun e2 => idMatches eId e2.id) with _ | e2 <;>
          simp only [hf]
        exfalso
        have he2 : idMatches eId e2.id = true := by
          have hfs := List.find?_some hf
          simpa using hfs
        have hmem : e2 ∈ es := List.mem_of_find?_eq_some hf
        have hid : e2.id = e.id := idMatches_inj he2 hm
        rw [List.map_cons, List.nodup_cons] at hnd
        exact hnd.1 (hid ▸ List.mem_map_of_mem (fun x => x.id) hmem)
      · simp

/-- With unique employee ids per day (and a parsable key), the memo's
per-day decision agrees with the specification's §4.2 re-scan predicate. -/
theorem dayPass_eq_spec {today : CalDate} {eId sId : String}
    {d : DayAvailability} {c : CalDate}
    (hpar : parseKeyShaped d.date = some c)
    (hnd : (d.employees.map (fun e => e.id)).Nodup) :
    dayPass today eId sId d = specDayAvailable today eId sId c d := by
  unfold dayPass specDayAvailable
  rw [hpar]
  congr 1
  unfold dayHasAvailability
  by_cases he : (eId != "") = true
  case neg =>
    rw [if_neg he, if_neg he]
  case pos =>
    rw [if_pos he, if_pos he]
    rw [any_eq_find?_of_uniq (fun e => decide (e.slots.length > 0) &&
      (sId == "" || e.services.any (fun sv => idMatches sId sv.id))) hnd]
    rcases hf : d.employees.find? (fun e => idMatches eId e.id) with _ | emp <;>
      simp only [hf]
    by_cases hp : emp.slots.length > 0
    · rw [if_pos hp]
      simp only [decide_eq_true hp, Bool.true_and]
      by_cases hs : (sId != "") = true
      · rw [if_pos hs]
        have hs2 : (sId == "") = false := by
          rcases h2 : sId == "" with _ | _
          · rfl
          · exfalso
            rw [bne, h2] at hs
            simp at hs
        rw [hs2]
        simp
      · rw [if_neg hs]
        have hs2 : (sId == "") = true := by
          rcases h2 : sId == "" with _ | _
          · exfalso
            apply hs
            rw [bne, h2]
            rfl
          · rfl
        rw [hs2]
        simp
    · rw [if_neg hp]
      simp [hp]

theorem mapM_toKey_shaped {P : DateParser} :
    ∀ (days : List DayAvailability), (∀ d ∈ days, isDateKey d.date = true) →
    days.mapM (fun d => toKey P (.str d.date)) =
      some (days.map (fun d => d.date))
  | [], _ => rfl
  | d :: ds, h => by
    rw [List.mapM_cons, toKey_shaped (h d (by simp)),
      mapM_toKey_shaped ds (fun x hx => h x (by simp [hx]))]
    rfl

theorem WF_shaped {a : AvailabilityResponse} (h : WFSnapshot a) :
    ∀ d ∈ a.days, isDateKey d.date = true := by
  intro d hd
  rcases ho : parseKeyShaped d.date with _ | c
  · have h2 := h.1 d hd
    rw [ho] at h2
    simp at h2
  · exact parseKeyShaped_isDateKey ho

theorem earliest_spec {P : DateParser} {today : CalDate}
    {a : AvailabilityResponse} {eId sId : String}
    {m : List (String × DayAvailability)} {daySet : List String}
    (hWF : WFSnapshot a)
    (hb : buildDayIndex P today (some a) eId sId = some (m, daySet)) :
    (daySet = [] → earliestAvailableDate P (some a) daySet = some none) ∧
    (daySet ≠ [] → ∃ c k0,
      earliestAvailableDate P (some a) daySet = some (some c) ∧
      k0 ∈ daySet ∧ parseKeyShaped k0 = some c ∧
      ∀ k ∈ daySet, keyLt k k0 = false) := by
  have hsh := WF_shaped hWF
  obtain ⟨m2, s2, hb2, hchar, -⟩ := buildDayIndex_spec P today eId sId hsh
  rw [hb] at hb2
  injection hb2 with hb3
  injection hb3 with hm hs
  subst hs
  have hsub : ∀ k ∈ daySet, k ∈ a.days.map (fun d => d.date) := by
    intro k hk
    obtain ⟨d, hd, hdk, -⟩ := (hchar k).mp hk
    exact hdk ▸ List.mem_map_of_mem (fun d => d.date) hd
  constructor
  · intro hempty
    subst hempty
    rfl
  · intro hne
    have hlen : (daySet.length == 0) = false := by
      rcases daySet with _ | ⟨k, ks⟩
      · exact absurd rfl hne
      · rfl
    rw [show earliestAvailableDate P (some a) daySet =
      (if (daySet.length == 0) = true then some none
       else
         match a.days.mapM (fun d => toKey P (.str d.date)) with
         | none => none
         | some keys =>
           match sortKeys (keys.filter (fun k => daySet.contains k)) with
           | [] => some none
           | k :: _ => some (parseKeyShaped k)) from rfl]
    rw [mapM_toKey_shaped a.days hsh]
    simp only [hlen, Bool.false_eq_true, if_false]
    have hfilterMem : ∀ k ∈ daySet,
        k ∈ (a.days.map (fun d => d.date)).filter (fun k2 => daySet.contains k2) := by
      intro k hk
      rw [List.mem_filter]
      exact ⟨hsub k hk, by simpa using hk⟩
    rcases hsort : sortKeys ((a.days.map (fun d => d.date)).filter
        (fun k2 => daySet.contains k2)) with _ | ⟨k0, rest⟩
    · exfalso
      have hfe := sortKeys_eq_nil hsort
      rcases daySet with _ | ⟨k, ks⟩
      · exact hne rfl
      · have := hfilterMem k (by simp)
        rw [hfe] at this
        simp at this
    · have hk0mem : k0 ∈ (a.days.map (fun d => d.date)).filter
          (fun k2 => daySet.contains k2) := by
        rw [← mem_sortKeys, hsort]
        simp
      rw [List.mem_filter] at hk0mem
      have hk0set : k0 ∈ daySet := by simpa using hk0mem.2
      have hk0dates := hk0mem.1
      rw [List.mem_map] at hk0dates
      obtain ⟨d0, hd0, hd0k⟩ := hk0dates
      have hpar0 : (parseKeyShaped k0).isSome = true := hd0k ▸ hWF.1 d0 hd0
      rcases hc0 : parseKeyShaped k0 with _ | c0
      · rw [hc0] at hpar0
        simp at hpar0
      · refine ⟨c0, k0, ?_, hk0set, hc0, ?_⟩
        · rw [hsort]
          simp only [hc0]
        · intro k hk
          exact sortKeys_head_min _ k0 rest hsort k (hfilterMem k hk)

/-- Chronological minimality of the earliest key, via the digit-string
order correspondence. -/
theorem earliest_min_chrono {daySet : List String} {c : CalDate} {k0 : String}
    (hc0 : parseKeyShaped k0 = some c)
    (hmin : ∀ k ∈ daySet, keyLt k k0 = false) :
    ∀ k ∈ daySet, ∀ c', parseKeyShaped k = some c' →
      CalDate.before c' c = false := by
  intro k hk c' hc'
  rcases hbc : CalDate.before c' c with _ | _
  · rfl
  · exfalso
    have := keyLt_of_before hc' hc0 hbc
    rw [hmin k hk] at this
    simp at this

theorem derive_eq_some {P : DateParser} {today : CalDate} {s : UIState}
    {m : List (String × DayAvailability)} {daySet : List String}
    {e : Option CalDate}
    (hb : buildDayIndex P today s.availability s.employeeId s.serviceId =
      some (m, daySet))
    (he : earliestAvailableDate P s.availability daySet = some e) :
    derive P today s =
      some ⟨m, daySet, e, selectedDayData s.availability s.selectedDate m⟩ := by
  unfold derive
  rw [hb]
  show (match earliestAvailableDate P s.availability daySet with
    | none => none
    | some earliest =>
      some (⟨m, daySet, earliest,
        selectedDayData s.availability s.selectedDate m⟩ : Derived)) =
    some ⟨m, daySet, e, selectedDayData s.availability s.selectedDate m⟩
  rw [he]

theorem derive_inv {P : DateParser} {today : CalDate} {s : UIState}
    {D : Derived} (h : derive P today s = some D) :
    buildDayIndex P today s.availability s.employeeId s.serviceId =
      some (D.daysByKey, D.availableDaySet) ∧
    earliestAvailableDate P s.availability D.availableDaySet =
      some D.earliest ∧
    D.dayData = selectedDayData s.availability s.selectedDate D.daysByKey := by
  unfold derive at h
  split at h
  · exact absurd h (by simp)
  · next m daySet hb =>
    split at h
    · exact absurd h (by simp)
    · next e he =>
      injection h with h2
      subst h2
      exact ⟨hb, he, rfl⟩

theorem derive_total {P : DateParser} {today : CalDate} {s : UIState}
    {a : AvailabilityResponse} (hav : s.availability = some a)
    (hWF : WFSnapshot a) : ∃ D, derive P today s = some D := by
  obtain ⟨m, daySet, hb, -, -⟩ :=
    buildDayIndex_spec P today s.employeeId s.serviceId (WF_shaped hWF)
  have hb' : buildDayIndex P today s.availability s.employeeId s.serviceId =
      some (m, daySet) := by
    rw [hav]
    exact hb
  obtain ⟨h1, h2⟩ := earliest_spec hWF hb
  by_cases hne : daySet = []
  · exact ⟨_, derive_eq_some hb' (by rw [hav]; exact h1 hne)⟩
  · obtain ⟨c, k0, he, -⟩ := h2 hne
    exact ⟨_, derive_eq_some hb' (by rw [hav]; exact he)⟩

theorem writes_refl (s : UIState) : Writes s s := by
  unfold Writes
  simp

theorem writes_trans {a b c : UIState} (h1 : Writes a b) (h2 : Writes b c) :
    Writes a c := by
  unfold Writes at *
  obtain ⟨e1, e2, e3, e4, e5, e6, e7, e8, e9, f1, f2, f3⟩ := h1
  obtain ⟨g1, g2, g3, g4, g5, g6, g7, g8, g9, k1, k2, k3⟩ := h2
  refine ⟨by rw [g1, e1], by rw [g2, e2], by rw [g3, e3], by rw [g4, e4],
    by rw [g5, e5], by rw [g6, e6], by rw [g7, e7], by rw [g8, e8],
    by rw [g9, e9], ?_, ?_, ?_⟩
  · rcases k1 with k1 | k1
    · rw [k1]
      exact f1
    · exact Or.inr k1
  · rcases k2 with k2 | k2
    · rw [k2]
      exact f2
    · exact Or.inr k2
  · rcases k3 with k3 | k3
    · rw [k3]
      exact f3
    · exact Or.inr k3

theorem writes_set_date {s t : UIState} (h : Writes s t) (x : Option CalDate) :
    Writes s { t with selectedDate := x } := by
  obtain ⟨e1, e2, e3, e4, e5, e6, e7, e8, e9, f1, f2, f3⟩ := h
  exact ⟨e1, e2, e3, e4, e5, e6, e7, e8, e9, f1, f2, f3⟩

theorem writes_clear_date_slot {s t : UIState} (h : Writes s t) :
    Writes s { t with selectedDate := none, selectedSlot := "" } := by
  obtain ⟨e1, e2, e3, e4, e5, e6, e7, e8, e9, f1, f2, f3⟩ := h
  exact ⟨e1, e2, e3, e4, e5, e6, e7, e8, e9, f1, f2, Or.inr rfl⟩

theorem writes_clear_service {s t : UIState} (h : Writes s t) :
    Writes s { t with serviceId := "" } := by
  obtain ⟨e1, e2, e3, e4, e5, e6, e7, e8, e9, f1, f2, f3⟩ := h
  exact ⟨e1, e2, e3, e4, e5, e6, e7, e8, e9, Or.inr rfl, f2, f3⟩

theorem writes_clear_emp_slot {s t : UIState} (h : Writes s t) :
    Writes s { t with employeeId := "", selectedSlot := "", timeOpen := false } := by
  obtain ⟨e1, e2, e3, e4, e5, e6, e7, e8, e9, f1, f2, f3⟩ := h
  exact ⟨e1, e2, e3, e4, e5, e6, e7, e8, e9, f1, Or.inr rfl, Or.inr rfl⟩

theorem writes_clear_slot_timeOpen {s t : UIState} (h : Writes s t) :
    Writes s { t with selectedSlot := "", timeOpen := false } := by
  obtain ⟨e1, e2, e3, e4, e5, e6, e7, e8, e9, f1, f2, f3⟩ := h
  exact ⟨e1, e2, e3, e4, e5, e6, e7, e8, e9, f1, f2, Or.inr rfl⟩

theorem writes_ite {s a b : UIState} {P : Prop} [Decidable P]
    (ha : Writes s a) (hb : Writes s b) : Writes s (if P then a else b) := by
  by_cases h : P
  · rwa [if_pos h]
  · rwa [if_neg h]

theorem validityEffect_writes (D : Derived) (cur acc : UIState) :
    Writes acc (validityEffect D cur acc) := by
  unfold validityEffect
  split
  · exact writes_refl acc
  · dsimp only
    apply writes_ite (writes_refl acc)
    split
    · exact writes_set_date (writes_refl acc) _
    · exact writes_clear_date_slot (writes_refl acc)

theorem dateResetEffect_writes (acc : UIState) :
    Writes acc (dateResetEffect acc) :=
  writes_clear_slot_timeOpen (writes_refl acc)

theorem employeeEffect_writes (D : Derived) (cur acc : UIState) :
    Writes acc (employeeEffect D cur acc) := by
  unfold employeeEffect
  apply writes_ite (writes_refl acc)
  split
  · exact writes_refl acc
  · split
    · exact writes_refl acc
    · dsimp only
      apply writes_clear_slot_timeOpen
      apply writes_ite
      · split
        · exact writes_set_date
            (writes_ite (writes_clear_service (writes_refl acc)) (writes_refl acc)) _
        · exact writes_ite (writes_clear_service (writes_refl acc)) (writes_refl acc)
      · exact writes_ite (writes_clear_service (writes_refl acc)) (writes_refl acc)

theorem serviceEffect_writes (D : Derived) (cur acc : UIState) :
    Writes acc (serviceEffect D cur acc) := by
  unfold serviceEffect
  apply writes_ite (writes_refl acc)
  split
  · exact writes_refl acc
  · split
    · exact writes_ite (writes_refl acc) (writes_clear_emp_slot (writes_refl acc))
    · exact writes_clear_emp_slot (writes_refl acc)

theorem runPass_writes (P : DateParser) (today : CalDate) (prev cur : UIState) :
    Writes cur (runPass P today prev cur) := by
  unfold runPass
  split
  · dsimp only
    split_ifs <;>
      repeat
        first
        | exact writes_refl _
        | refine writes_trans ?_ (validityEffect_writes _ _ _)
        | refine writes_trans ?_ (dateResetEffect_writes _)
        | refine writes_trans ?_ (employeeEffect_writes _ _ _)
        | refine writes_trans ?_ (serviceEffect_writes _ _ _)
  · exact writes_refl _

theorem settle_writes (P : DateParser) (today : CalDate) :
    ∀ (n : Nat) (prev cur : UIState), Writes cur (settle P today n prev cur)
  | 0, _, cur => writes_refl cur
  | n + 1, prev, cur => by
    unfold settle
    dsimp only
    split
    · exact writes_refl cur
    · exact writes_trans (runPass_writes P today prev cur)
        (settle_writes P today n cur (runPass P today prev cur))

theorem settle_serviceId_empty {P : DateParser} {today : CalDate}
    {n : Nat} {prev cur : UIState} (h : cur.serviceId = "") :
    (settle P today n prev cur).serviceId = "" := by
  rcases (settle_writes P today n prev cur).2.2.2.2.2.2.2.2.2.1 with h1 | h1
  · rw [h1, h]
  · exact h1

theorem settle_employeeId_empty {P : DateParser} {today : CalDate}
    {n : Nat} {prev cur : UIState} (h : cur.employeeId = "") :
    (settle P today n prev cur).employeeId = "" := by
  rcases (settle_writes P today n prev cur).2.2.2.2.2.2.2.2.2.2.1 with h1 | h1
  · rw [h1, h]
  · exact h1

theorem settle_slot_empty {P : DateParser} {today : CalDate}
    {n : Nat} {prev cur : UIState} (h : cur.selectedSlot = "") :
    (settle P today n prev cur).selectedSlot = "" := by
  rcases (settle_writes P today n prev cur).2.2.2.2.2.2.2.2.2.2.2 with h1 | h1
  · rw [h1, h]
  · exact h1

theorem runPass_availability (P : DateParser) (today : CalDate)
    (prev cur : UIState) :
    (runPass P today prev cur).availability = cur.availability :=
  (runPass_writes P today prev cur).2.2.2.2.1

/-! ### No past day ever enters the available-day set -/

/-- Keys the memo loop adds to the available-day set parse to non-past
dates: the loop `continue`s on any day whose normalized key parses to a
date strictly before today. -/
theorem dayIndexFold_noPast (P : DateParser) (today : CalDate)
    (eId sId : String) :
    ∀ (days : List DayAvailability)
      (acc : List (String × DayAvailability) × List String)
      (m : List (String × DayAvailability)) (daySet : List String),
    days.foldlM (dayIndexStep P today eId sId) acc = some (m, daySet) →
    (∀ k ∈ acc.2, ∀ c, parseKeyShaped k = some c →
      CalDate.before c today = false) →
    ∀ k ∈ daySet, ∀ c, parseKeyShaped k = some c →
      CalDate.before c today = false
  | [], acc, m, daySet, hfold, hbase => by
    rw [List.foldlM_nil] at hfold
    injection hfold with h2
    rw [h2] at hbase
    exact hbase
  | d :: ds, acc, m, daySet, hfold, hbase => by
    rw [List.foldlM_cons] at hfold
    rcases hstep : dayIndexStep P today eId sId acc d with _ | acc2
    · rw [hstep] at hfold
      exact absurd hfold (by simp)
    · rw [hstep] at hfold
      refine dayIndexFold_noPast P today eId sId ds acc2 m daySet hfold ?_
      unfold dayIndexStep at hstep
      rcases hkey : toKey P (.str d.date) with _ | key <;>
        simp only [hkey] at hstep
      · exact absurd hstep (by simp)
      · rcases hpk : parseKeyShaped key with _ | c <;>
          simp only [hpk] at hstep
        · rcases hav : dayHasAvailability eId sId d with _ | _ <;>
            simp only [hav, Bool.false_eq_true, if_false, if_true] at hstep <;>
            injection hstep with h2 <;> rw [← h2]
          · exact hbase
          · intro k hk c2 hc2
            rcases mem_setAdd.mp hk with hk2 | rfl
            · exact hbase k hk2 c2 hc2
            · rw [hpk] at hc2
              exact absurd hc2 (by simp)
        · rcases hbef : CalDate.before c today with _ | _ <;>
            simp only [hbef, Bool.false_eq_true, if_false, if_true] at hstep
          · rcases hav : dayHasAvailability eId sId d with _ | _ <;>
              simp only [hav, Bool.false_eq_true, if_false, if_true] at hstep <;>
              injection hstep with h2 <;> rw [← h2]
            · exact hbase
            · intro k hk c2 hc2
              rcases mem_setAdd.mp hk with hk2 | rfl
              · exact hbase k hk2 c2 hc2
              · rw [hpk] at hc2
                injection hc2 with h3
                rw [← h3]
                exact hbef
          · injection hstep with h2
            rw [← h2]
            exact hbase

/-- C3: for every snapshot content (well-formed or not) and every filter
combination, any member of the computed available-day set that denotes a
calendar date denotes one on or after today — no date strictly before the
current day is ever in the set, hence none can be auto-selected. -/
theorem C3_no_past_day (P : DateParser) (today : CalDate)
    (av : Option AvailabilityResponse) (eId sId : String)
    (m : List (String × DayAvailability)) (daySet : List String)
    (hb : buildDayIndex P today av eId sId = some (m, daySet)) :
    ∀ k ∈ daySet, ∀ c, parseKeyShaped k = some c →
      CalDate.before c today = false := by
  rcases av with _ | a
  · unfold buildDayIndex at hb
    injection hb with h2
    injection h2 with hm hs
    rw [← hs]
    simp
  · unfold buildDayIndex at hb
    exact dayIndexFold_noPast P today eId sId a.days ([], []) m daySet hb
      (by simp)

/-- C3 witness: on a snapshot holding an open March 1 day, the set keeps
only March 10, which is not before the March 5 current day. -/
theorem C3_no_past_day_witness : CalDate.before ⟨2025, 3, 10⟩ t0 = false :=
  C3_no_past_day noParse t0 (some snapP) "" ""
    [("2025-03-01", dayPast), ("2025-03-10", day10)] ["2025-03-10"]
    (by decide) "2025-03-10" (by decide) ⟨2025, 3, 10⟩ (by decide)

/-! ### The fetch error path -/

/-- C9: a failed availability request leaves the held snapshot untouched;
an abort (the cancellation of a superseded request) records no
user-visible error, and any other failure records the exception's message
(or the default text when the exception carries none). -/
theorem C9_fetch_failure (P : DateParser) (s : UIState) (nm : String)
    (msg : Option String) :
    (fetchStep P (.failure nm msg) s).availability = s.availability ∧
    ((nm == "AbortError") = true → (fetchStep P (.failure nm msg) s).error = "") ∧
    ((nm == "AbortError") = false →
      (fetchStep P (.failure nm msg) s).error =
        msg.getD "Failed to load availability") := by
  unfold fetchStep
  dsimp only
  rcases hab : nm == "AbortError" with _ | _ <;> simp [bne, hab]

/-! ### Shape and idempotence of the `toKey` normalizer -/

/-- Any key `toKey` returns for a string input is a ten-character
`yyyy-MM-dd` digit string, provided the environment's parses only produce
dates whose formatted fields fit the key's widths. -/
theorem toKey_str_shaped {P : DateParser} (hP : BoundedParser P) {s k : String}
    (h : toKey P (.str s) = some k) : isDateKey k = true := by
  unfold toKey at h
  rcases hsk : isDateKey s with _ | _ <;>
    simp only [hsk, Bool.false_eq_true, if_false, if_true] at h
  · rcases hl : P.loose s with _ | c <;> simp only [hl] at h
    · rcases hi : P.iso s with _ | c2 <;> simp only [hi] at h
      · exact absurd h (by simp)
      · injection h with h2
        obtain ⟨hy, hm, hd⟩ := hP.2 s c2 hi
        rw [← h2]
        exact isDateKey_formatYMD hy hm hd
    · injection h with h2
      obtain ⟨hy, hm, hd⟩ := hP.1 s c hl
      rw [← h2]
      exact isDateKey_formatYMD hy hm hd
  · injection h with h2
    rw [← h2]
    exact hsk

/-- Inversion for `List.mapM` over `Option`: every element of a successful
result comes from some input element. -/
theorem mapM_mem {α β : Type} {f : α → Option β} :
    ∀ (l : List α) (l2 : List β), l.mapM f = some l2 →
      ∀ b ∈ l2, ∃ x ∈ l, f x = some b
  | [], l2, h => by
    rw [List.mapM_nil] at h
    injection h with h2
    rw [← h2]
    simp
  | a :: l, l2, h => by
    rw [List.mapM_cons] at h
    rcases hfa : f a with _ | b <;> simp only [hfa] at h
    · exact absurd h (by simp)
    · rcases hm : l.mapM f with _ | bs <;> simp only [hm] at h
      · exact absurd h (by simp)
      · intro b2 hb2
        have h2 : b :: bs = l2 := by
          simpa using h
        rw [← h2] at hb2
        rcases List.mem_cons.mp hb2 with rfl | hmem
        · exact ⟨a, by simp, hfa⟩
        · obtain ⟨x, hx, hfx⟩ := mapM_mem l bs hm b2 hmem
          exact ⟨x, by simp [hx], hfx⟩

/-- C10 (amended): in an environment whose parses only produce
formattable dates, `toKey` returns any `yyyy-MM-dd` input unchanged, every
key it successfully returns is itself a `yyyy-MM-dd` string on which
`toKey` is idempotent, and every day key stored by the fetch's
normalization is a fixed point of `toKey`.  (The unconditional claim
fails: `toKey` throws on an unparsable input instead of returning a key,
see the counterexample.) -/
theorem C10_toKey_normalization (P : DateParser) (hP : BoundedParser P) :
    (∀ s, isDateKey s = true → toKey P (.str s) = some s) ∧
    (∀ s k, toKey P (.str s) = some k →
      isDateKey k = true ∧ toKey P (.str k) = some k) ∧
    (∀ resp a, normalizeSnap P resp = some a → ∀ d ∈ a.days,
      toKey P (.str d.date) = some d.date) := by
  refine ⟨fun s h => toKey_shaped h, fun s k h => ?_, fun resp a h d hd => ?_⟩
  · have hk := toKey_str_shaped hP h
    exact ⟨hk, toKey_shaped hk⟩
  · unfold normalizeSnap at h
    rcases hm : resp.days.mapM
        (fun d => (toKey P (.str d.date)).map fun k => { d with date := k })
      with _ | days <;> simp only [hm] at h
    · exact absurd h (by simp)
    · injection h with h2
      have hd2 : d ∈ days := by
        rw [← h2] at hd
        simpa using hd
      obtain ⟨d0, hd0, hfd0⟩ := mapM_mem _ _ hm d hd2
      rcases htk : toKey P (.str d0.date) with _ | k <;>
        simp only [htk] at hfd0
      · exact absurd hfd0 (by simp)
      · have h3 : { d0 with date := k } = d := by
          simpa using hfd0
        have hdk : d.date = k := by
          rw [← h3]
        rw [hdk]
        exact toKey_shaped (toKey_str_shaped hP htk)

/-- C10 counterexample: on a string no environment parse accepts, `toKey`
returns no normalized key at all (`format(startOfDay(invalid))` throws a
`RangeError`), refuting "always returns a string in yyyy-MM-dd shape" and
with it unconditional idempotence. -/
theorem C10_toKey_counterexample : toKey noParse (.str "hello") = none := by
  decide

/-- C10 witness: the never-parsing environment is bounded, and `toKey`
fixes the already-normalized key 2025-03-10. -/
theorem C10_toKey_normalization_witness :
    toKey noParse (.str "2025-03-10") = some "2025-03-10" :=
  (C10_toKey_normalization noParse
    ⟨fun _ _ h => (nomatch h), fun _ _ h => nomatch h⟩).1
    "2025-03-10" (by decide)

/-! ### The deduplicated service union -/

/-- An entry of a JS `Map.set` update is an old entry or the new binding. -/
theorem upsert_mem {κ α : Type} [BEq κ] {k : κ} {v : α} :
    ∀ {m : List (κ × α)} {p : κ × α}, p ∈ upsert m k v → p ∈ m ∨ p = (k, v)
  | [], p, h => by
    unfold upsert at h
    simp at h
    exact Or.inr h
  | (k2, v2) :: rest, p, h => by
    unfold upsert at h
    rcases hk : k2 == k with _ | _ <;>
      simp only [hk, Bool.false_eq_true, if_false, if_true] at h
    · rcases List.mem_cons.mp h with h2 | h2
      · exact Or.inl (by simp [h2])
      · rcases upsert_mem h2 with h3 | h3
        · exact Or.inl (List.mem_cons_of_mem _ h3)
        · exact Or.inr h3
    · rcases List.mem_cons.mp h with h2 | h2
      · exact Or.inr h2
      · exact Or.inl (List.mem_cons_of_mem _ h2)

/-- `Map.set` covers exactly the old keys plus the new one. -/
theorem upsert_covers {κ α : Type} [BEq κ] [LawfulBEq κ] (k : κ) (v : α) :
    ∀ (m : List (κ × α)) (i : κ),
      (∃ q ∈ upsert m k v, q.1 = i) ↔ (∃ q ∈ m, q.1 = i) ∨ i = k
  | [], i => by
    unfold upsert
    simp [eq_comm]
  | (k2, v2) :: rest, i => by
    unfold upsert
    rcases hk : k2 == k with _ | _ <;>
      simp only [hk, Bool.false_eq_true, if_false, if_true]
    · constructor
      · rintro ⟨q, hq, hqi⟩
        rcases List.mem_cons.mp hq with rfl | hq2
        · exact Or.inl ⟨(k2, v2), by simp, hqi⟩
        · rcases (upsert_covers k v rest i).mp ⟨q, hq2, hqi⟩ with ⟨q2, hq2b, hi⟩ | hik
          · exact Or.inl ⟨q2, by simp [hq2b], hi⟩
          · exact Or.inr hik
      · rintro (⟨q, hq, hqi⟩ | hik)
        · rcases List.mem_cons.mp hq with rfl | hq2
          · exact ⟨(k2, v2), by simp, hqi⟩
          · rcases (upsert_covers k v rest i).mpr (Or.inl ⟨q, hq2, hqi⟩) with ⟨q2, hq2b, hi⟩
            exact ⟨q2, by simp [hq2b], hi⟩
        · rcases (upsert_covers k v rest i).mpr (Or.inr hik) with ⟨q2, hq2b, hi⟩
          exact ⟨q2, by simp [hq2b], hi⟩
    · have hk2 : k2 = k := eq_of_beq hk
      subst hk2
      constructor
      · rintro ⟨q, hq, hqi⟩
        rcases List.mem_cons.mp hq with rfl | hq2
        · exact Or.inr hqi.symm
        · exact Or.inl ⟨q, by simp [hq2], hqi⟩
      · rintro (⟨q, hq, hqi⟩ | hik)
        · rcases List.mem_cons.mp hq with rfl | hq2
          · exact ⟨(k2, v), by simp, hqi⟩
          · exact ⟨q, by simp [hq2], hqi⟩
        · exact ⟨(k2, v), by simp, hik.symm⟩

/-- `Map.set` keeps the key list duplicate-free. -/
theorem upsert_nodup_keys {κ α : Type} [BEq κ] [LawfulBEq κ] (k : κ) (v : α) :
    ∀ (m : List (κ × α)), ((m.map fun p => p.1).Nodup) →
      (((upsert m k v).map fun p => p.1).Nodup)
  | [], _ => by
    unfold upsert
    simp
  | (k2, v2) :: rest, h => by
    unfold upsert
    rw [List.map_cons, List.nodup_cons] at h
    rcases hk : k2 == k with _ | _ <;>
      simp only [hk, Bool.false_eq_true, if_false, if_true]
    · rw [List.map_cons, List.nodup_cons]
      refine ⟨?_, upsert_nodup_keys k v rest h.2⟩
      intro hmem
      rw [List.mem_map] at hmem
      obtain ⟨p, hp, hpk⟩ := hmem
      rcases upsert_mem hp with h2 | h2
      · exact h.1 (hpk ▸ List.mem_map_of_mem (fun p => p.1) h2)
      · rw [h2] at hpk
        exact (ne_of_beq_false hk) hpk.symm
    · rw [List.map_cons, List.nodup_cons]
      have hk2 : k2 = k := eq_of_beq hk
      subst hk2
      exact ⟨h.1, h.2⟩

/-- Entries of the inner service fold carry a listed service under its
own id. -/
theorem svcFold_mem :
    ∀ (l : List Service) (m : List (Nat × Service)) (p : Nat × Service),
    p ∈ l.foldl (fun m2 sv => upsert m2 sv.id sv) m →
    p ∈ m ∨ (p.2 ∈ l ∧ p.1 = p.2.id)
  | [], _, _, h => Or.inl h
  | sv :: l, m, p, h => by
    rw [List.foldl_cons] at h
    rcases svcFold_mem l _ p h with h2 | h2
    · rcases upsert_mem h2 with h3 | h3
      · exact Or.inl h3
      · right
        rw [h3]
        exact ⟨by simp, rfl⟩
    · exact Or.inr ⟨by simp [h2.1], h2.2⟩

/-- The inner service fold covers the old keys plus every listed id. -/
theorem svcFold_covers :
    ∀ (l : List Service) (m : List (Nat × Service)) (i : Nat),
    (∃ q ∈ l.foldl (fun m2 sv => upsert m2 sv.id sv) m, q.1 = i) ↔
      (∃ q ∈ m, q.1 = i) ∨ ∃ sv ∈ l, sv.id = i
  | [], m, i => by simp
  | sv :: l, m, i => by
    rw [List.foldl_cons, svcFold_covers l _ i, upsert_covers]
    constructor
    · rintro ((hq | hik) | ⟨sv2, hsv2, hi⟩)
      · exact Or.inl hq
      · exact Or.inr ⟨sv, by simp, hik.symm⟩
      · exact Or.inr ⟨sv2, by simp [hsv2], hi⟩
    · rintro (hq | ⟨sv2, hsv2, hi⟩)
      · exact Or.inl (Or.inl hq)
      · rcases List.mem_cons.mp hsv2 with rfl | hsv3
        · exact Or.inl (Or.inr hi.symm)
        · exact Or.inr ⟨sv2, hsv3, hi⟩

/-- The inner service fold keeps the keys duplicate-free. -/
theorem svcFold_nodup :
    ∀ (l : List Service) (m : List (Nat × Service)),
    ((m.map fun p => p.1).Nodup) →
    (((l.foldl (fun m2 sv => upsert m2 sv.id sv) m).map fun p => p.1).Nodup)
  | [], _, h => h
  | sv :: l, m, h => by
    rw [List.foldl_cons]
    exact svcFold_nodup l _ (upsert_nodup_keys _ _ _ h)

/-- Entries of the service-union fold come from a listed employee with at
least one open slot. -/
theorem empFold_mem :
    ∀ (es : List EmployeeAvailability) (m0 : List (Nat × Service))
      (p : Nat × Service),
    p ∈ es.foldl (fun acc e => if e.slots.length == 0 then acc
      else e.services.foldl (fun m2 sv => upsert m2 sv.id sv) acc) m0 →
    p ∈ m0 ∨ ∃ e ∈ es, 0 < e.slots.length ∧ p.2 ∈ e.services ∧ p.1 = p.2.id
  | [], _, _, h => Or.inl h
  | e :: es, m0, p, h => by
    rw [List.foldl_cons] at h
    rcases hz : e.slots.length == 0 with _ | _ <;> simp only [hz] at h
    · rcases empFold_mem es _ p (by simpa using h) with h2 | h2
      · rcases svcFold_mem e.services m0 p h2 with h3 | h3
        · exact Or.inl h3
        · exact Or.inr ⟨e, by simp, Nat.pos_of_ne_zero (ne_of_beq_false hz),
            h3.1, h3.2⟩
      · obtain ⟨e2, he2, hs2, hm2, hi2⟩ := h2
        exact Or.inr ⟨e2, by simp [he2], hs2, hm2, hi2⟩
    · rcases empFold_mem es _ p (by simpa using h) with h2 | h2
      · exact Or.inl h2
      · obtain ⟨e2, he2, hs2, hm2, hi2⟩ := h2
        exact Or.inr ⟨e2, by simp [he2], hs2, hm2, hi2⟩

/-- Every service of every employee with a slot is represented (by id) in
the union fold. -/
theorem empFold_covers :
    ∀ (es : List EmployeeAvailability) (m0 : List (Nat × Service)) (i : Nat),
    (∃ q ∈ es.foldl (fun acc e => if e.slots.length == 0 then acc
        else e.services.foldl (fun m2 sv => upsert m2 sv.id sv) acc) m0, q.1 = i) ↔
      (∃ q ∈ m0, q.1 = i) ∨
      ∃ e ∈ es, 0 < e.slots.length ∧ ∃ sv ∈ e.services, sv.id = i
  | [], m0, i => by simp
  | e :: es, m0, i => by
    rw [List.foldl_cons]
    rcases hz : e.slots.length == 0 with _ | _
    · rw [if_neg (by simp)]
      rw [empFold_covers es _ i, svcFold_covers]
      have hpos : 0 < e.slots.length := Nat.pos_of_ne_zero (ne_of_beq_false hz)
      constructor
      · rintro ((hq | ⟨sv, hsv, hi⟩) | ⟨e2, he2, hs2, hsv2⟩)
        · exact Or.inl hq
        · exact Or.inr ⟨e, by simp, hpos, sv, hsv, hi⟩
        · exact Or.inr ⟨e2, by simp [he2], hs2, hsv2⟩
      · rintro (hq | ⟨e2, he2, hs2, hsv2⟩)
        · exact Or.inl (Or.inl hq)
        · rcases List.mem_cons.mp he2 with rfl | he3
          · exact Or.inl (Or.inr hsv2)
          · exact Or.inr ⟨e2, he3, hs2, hsv2⟩
    · rw [if_pos rfl]
      rw [empFold_covers es _ i]
      constructor
      · rintro (hq | ⟨e2, he2, hs2, hsv2⟩)
        · exact Or.inl hq
        · exact Or.inr ⟨e2, by simp [he2], hs2, hsv2⟩
      · rintro (hq | ⟨e2, he2, hs2, hsv2⟩)
        · exact Or.inl hq
        · rcases List.mem_cons.mp he2 with he | he3
          · exfalso
            rw [he] at hs2
            have h0 : e.slots.length = 0 := by simpa using hz
            omega
          · exact Or.inr ⟨e2, he3, hs2, hsv2⟩

/-- The union fold keeps service-id keys duplicate-free. -/
theorem empFold_nodup :
    ∀ (es : List EmployeeAvailability) (m0 : List (Nat × Service)),
    ((m0.map fun p => p.1).Nodup) →
    (((es.foldl (fun acc e => if e.slots.length == 0 then acc
      else e.services.foldl (fun m2 sv => upsert m2 sv.id sv) acc) m0).map
        fun p => p.1).Nodup)
  | [], _, h => h
  | e :: es, m0, h => by
    rw [List.foldl_cons]
    rcases hz : e.slots.length == 0 with _ | _
    · rw [if_neg (by simp)]
      exact empFold_nodup es _ (svcFold_nodup e.services m0 h)
    · rw [if_pos rfl]
      exact empFold_nodup es m0 h

/-- C7: the services offered for selection are exactly the chosen
employee's day list when an employee is chosen and found, and otherwise
the id-deduplicated union of the services of the day's employees with at
least one slot. -/
theorem C7_services_for_selection (dd : DayAvailability) (eId : String) :
    ((eId != "") = true → ∀ emp,
      dd.employees.find? (fun e => idMatches eId e.id) = some emp →
      servicesForUI (some dd) eId = emp.services) ∧
    (eId = "" →
      (∀ sv ∈ servicesForUI (some dd) eId,
        ∃ e ∈ dd.employees, 0 < e.slots.length ∧ sv ∈ e.services) ∧
      (∀ e ∈ dd.employees, 0 < e.slots.length → ∀ sv ∈ e.services,
        ∃ sv2 ∈ servicesForUI (some dd) eId, sv2.id = sv.id) ∧
      (((servicesForUI (some dd) eId).map fun sv => sv.id).Nodup)) := by
  constructor
  · intro he emp hf
    unfold servicesForUI
    dsimp only
    rw [if_pos he, hf]
  · rintro rfl
    unfold servicesForUI
    dsimp only
    rw [if_neg (by simp)]
    refine ⟨?_, ?_, ?_⟩
    · intro sv hsv
      rw [List.mem_map] at hsv
      obtain ⟨p, hp, hpv⟩ := hsv
      rcases empFold_mem dd.employees [] p hp with h2 | h2
      · exact absurd h2 (by simp)
      · obtain ⟨e, he, hs, hm, -⟩ := h2
        exact ⟨e, he, hs, hpv ▸ hm⟩
    · intro e he hs sv hsv
      have hcov := (empFold_covers dd.employees [] sv.id).mpr
        (Or.inr ⟨e, he, hs, sv, hsv, rfl⟩)
      obtain ⟨q, hq, hqi⟩ := hcov
      refine ⟨q.2, List.mem_map_of_mem (fun p => p.2) hq, ?_⟩
      rcases empFold_mem dd.employees [] q hq with h2 | h2
      · exact absurd h2 (by simp)
      · obtain ⟨e2, he2, hs2b, hm2, hid2⟩ := h2
        rw [← hid2, hqi]
    · rw [List.map_map]
      have heq : (dd.employees.foldl (fun acc e => if e.slots.length == 0 then acc
          else e.services.foldl (fun m2 sv => upsert m2 sv.id sv) acc) []).map
            ((fun sv => sv.id) ∘ fun p => p.2) =
          (dd.employees.foldl (fun acc e => if e.slots.length == 0 then acc
          else e.services.foldl (fun m2 sv => upsert m2 sv.id sv) acc) []).map
            fun p => p.1 := by
        refine List.map_congr_left ?_
        intro p hp
        rcases empFold_mem dd.employees [] p hp with h2 | h2
        · exact absurd h2 (by simp)
        · obtain ⟨e2, he2, hs2b, hm2, hid2⟩ := h2
          exact hid2.symm
      rw [heq]
      exact empFold_nodup dd.employees [] (by simp)

/-- C7 witness: on the March 10 sample day, choosing Bea yields exactly
her list, and the employee-free union covers Ana's cut service with
duplicate-free service ids. -/
theorem C7_services_for_selection_witness :
    servicesForUI (some day10) "2" = empBea.services ∧
    (∃ sv2 ∈ servicesForUI (some day10) "", sv2.id = svcCut.id) ∧
    (((servicesForUI (some day10) "").map fun sv => sv.id).Nodup) :=
  ⟨(C7_services_for_selection day10 "2").1 (by decide) empBea (by decide),
   ((C7_services_for_selection day10 "").2 rfl).2.1 empAna (by decide)
     (by decide) svcCut (by decide),
   ((C7_services_for_selection day10 "").2 rfl).2.2⟩

/-! ### The available-day set against the §4.2 re-scan predicate -/

/-- C1 (amended): with unique per-day employee ids (§3), membership in
the computed available-day set coincides, for every snapshot and filter
combination, with the §4.2 predicate re-checked directly on the
snapshot's day entry.  (Without unique ids the code's first-match lookup
diverges from the re-scan, see the counterexample.) -/
theorem C1_day_set_matches_spec (P : DateParser) (today : CalDate)
    {a : AvailabilityResponse} (eId sId : String)
    {m : List (String × DayAvailability)} {daySet : List String}
    (hWF : WFSnapshot a) (hU : UniqueEmployeeIds a)
    (hb : buildDayIndex P today (some a) eId sId = some (m, daySet))
    (k : String) :
    k ∈ daySet ↔ ∃ d ∈ a.days, d.date = k ∧
      ∃ c, parseKeyShaped d.date = some c ∧
        specDayAvailable today eId sId c d = true := by
  obtain ⟨m2, s2, hb2, hchar, -⟩ :=
    buildDayIndex_spec P today eId sId (WF_shaped hWF)
  rw [hb] at hb2
  injection hb2 with hb3
  injection hb3 with hm hs
  subst hs
  rw [hchar k]
  constructor
  · rintro ⟨d, hd, hdk, hp⟩
    have hps := hWF.1 d hd
    rcases hc : parseKeyShaped d.date with _ | c
    · rw [hc] at hps
      exact absurd hps (by simp)
    · refine ⟨d, hd, hdk, c, hc, ?_⟩
      rw [← dayPass_eq_spec hc (hU d hd)]
      exact hp
  · rintro ⟨d, hd, hdk, c, hc, hs2⟩
    refine ⟨d, hd, hdk, ?_⟩
    rw [dayPass_eq_spec hc (hU d hd)]
    exact hs2

/-- C1 counterexample: with the employee id 1 duplicated on a day (first
entry slotless, second with a slot), the §4.2 re-scan predicate holds for
that day under the employee-1 filter, yet the computed set — driven by
the code's first-match lookup — is empty. -/
theorem C1_day_set_counterexample :
    buildDayIndex noParse t0 (some dupSnap) "1" "" =
      some ([("2025-03-10", dupDay)], []) ∧
    specDayAvailable t0 "1" "" ⟨2025, 3, 10⟩ dupDay = true ∧
    dupDay ∈ dupSnap.days ∧ dupDay.date = "2025-03-10" ∧
    parseKeyShaped "2025-03-10" = some ⟨2025, 3, 10⟩ := by
  decide

/-- C1 witness: on the well-formed sample snapshot with no filters, the
single key is in the set and the re-scan predicate confirms it. -/
theorem C1_day_set_matches_spec_witness :
    "2025-03-10" ∈ ["2025-03-10"] ↔ ∃ d ∈ snap0.days, d.date = "2025-03-10" ∧
      ∃ c, parseKeyShaped d.date = some c ∧
        specDayAvailable t0 "" "" c d = true :=
  C1_day_set_matches_spec noParse t0 "" ""
    (show WFSnapshot snap0 by constructor <;> decide)
    (show UniqueEmployeeIds snap0 by decide)
    (show buildDayIndex noParse t0 (some snap0) "" "" =
      some ([("2025-03-10", day10)], ["2025-03-10"]) by decide)
    "2025-03-10"

/-! ### Invalid-selection resolution (the validity effect) -/

/-- C2: whenever the committed selected date is not in the available-day
set (or no date is selected at all), the validity effect re-selects the
chronologically earliest date of the set, and clears both the date and
the slot when the set is empty. -/
theorem C2_invalid_date_resolution {P : DateParser} {today : CalDate}
    {s : UIState} {a : AvailabilityResponse} {D : Derived}
    (hav : s.availability = some a) (hWF : WFSnapshot a)
    (hD : derive P today s = some D)
    (hinv : ∀ d, s.selectedDate = some d →
      D.availableDaySet.contains (formatYMD d) = false) :
    (D.availableDaySet = [] →
      (validityEffect D s s).selectedDate = none ∧
      (validityEffect D s s).selectedSlot = "") ∧
    (D.availableDaySet ≠ [] → ∃ c k0,
      (validityEffect D s s).selectedDate = some c ∧
      k0 ∈ D.availableDaySet ∧ parseKeyShaped k0 = some c ∧
      ∀ k ∈ D.availableDaySet, ∀ c2, parseKeyShaped k = some c2 →
        CalDate.before c2 c = false) := by
  obtain ⟨hb, he, -⟩ := derive_inv hD
  rw [hav] at hb he
  obtain ⟨hemp, hne⟩ := earliest_spec hWF hb
  have heff : validityEffect D s s =
      (match D.earliest with
       | some c2 => { s with selectedDate := some c2 }
       | none => { s with selectedDate := none, selectedSlot := "" }) := by
    unfold validityEffect
    rw [hav]
    dsimp only
    rcases hsd : s.selectedDate with _ | d
    · rw [if_neg (by simp)]
    · dsimp only
      rw [hinv d hsd, if_neg (by simp)]
  constructor
  · intro hempty
    have hE : D.earliest = none := by
      have h2 := hemp hempty
      rw [he] at h2
      simpa using h2
    rw [heff, hE]
    exact ⟨rfl, rfl⟩
  · intro hneq
    obtain ⟨c, k0, heq, hk0, hpar, hmin⟩ := hne hneq
    have hE : D.earliest = some c := by
      rw [he] at heq
      simpa using heq
    rw [heff, hE]
    exact ⟨c, k0, rfl, hk0, hpar, earliest_min_chrono hpar hmin⟩

/-- C2 witness: with March 11 selected but only March 10 available, the
effect deterministically re-selects March 10, the chronological minimum
of the set. -/
theorem C2_invalid_date_resolution_witness :
    ∃ c k0, (validityEffect D2w st3 st3).selectedDate = some c ∧
      k0 ∈ D2w.availableDaySet ∧ parseKeyShaped k0 = some c ∧
      ∀ k ∈ D2w.availableDaySet, ∀ c2, parseKeyShaped k = some c2 →
        CalDate.before c2 c = false :=
  (C2_invalid_date_resolution
    (show st3.availability = some snap0 from rfl)
    (show WFSnapshot snap0 by constructor <;> decide)
    (show derive noParse t0 st3 = some D2w by decide)
    (by
      intro d hd
      injection hd with h2
      rw [← h2]
      decide)).2
    (by decide)

/-! ### Field tracking through single effects -/

/-- Discharge a boolean `if` whose condition is known false, pinning the
condition through the hypothesis. -/
theorem ite_cond_false {α : Sort u} {b : Bool} (x y : α) (h : b = false) :
    (if b = true then x else y) = y := by
  rw [h]
  simp

theorem validityEffect_serviceId (D : Derived) (cur acc : UIState) :
    (validityEffect D cur acc).serviceId = acc.serviceId := by
  unfold validityEffect
  split
  · rfl
  · dsimp only
    split
    · rfl
    · split <;> rfl

theorem serviceEffect_serviceId (D : Derived) (cur acc : UIState) :
    (serviceEffect D cur acc).serviceId = acc.serviceId := by
  unfold serviceEffect
  split
  · rfl
  · split
    · rfl
    · split
      · split <;> rfl
      · rfl

/-- The employee effect clears a service the picked employee cannot
perform, whatever the accumulated writes so far. -/
theorem employeeEffect_clear_service {D : Derived} (cur : UIState)
    {dd : DayAvailability} {emp : EmployeeAvailability}
    (hne : (cur.employeeId == "") = false)
    (hdd : D.dayData = some dd)
    (hf : dd.employees.find? (fun e => idMatches cur.employeeId e.id) = some emp)
    (hs : (cur.serviceId != "") = true)
    (hoff : emp.services.any (fun sv => idMatches cur.serviceId sv.id) = false)
    (acc : UIState) : (employeeEffect D cur acc).serviceId = "" := by
  unfold employeeEffect
  rw [if_neg (by simp [hne]), hdd]
  dsimp only
  rw [hf]
  dsimp only
  rw [hs, hoff]
  simp only [Bool.not_false, Bool.and_true]
  rw [if_pos trivial]
  dsimp only
  split
  · split <;> rfl
  · rfl

/-- The employee effect ends by clearing the slot whenever it runs to its
tail (employee picked and present on the selected day). -/
theorem employeeEffect_clear_slot {D : Derived} (cur : UIState)
    {dd : DayAvailability} {emp : EmployeeAvailability}
    (hne : (cur.employeeId == "") = false)
    (hdd : D.dayData = some dd)
    (hf : dd.employees.find? (fun e => idMatches cur.employeeId e.id) = some emp)
    (acc : UIState) : (employeeEffect D cur acc).selectedSlot = "" := by
  unfold employeeEffect
  rw [if_neg (by simp [hne]), hdd]
  dsimp only
  rw [hf]

/-- The service effect clears the employee and the slot when the chosen
employee is absent from the day or cannot perform the chosen service. -/
theorem serviceEffect_clear_emp {D : Derived} (cur : UIState)
    {dd : DayAvailability}
    (hsv : (cur.serviceId == "") = false)
    (hemp : (cur.employeeId == "") = false)
    (hdd : D.dayData = some dd)
    (hbad : ∀ e2, dd.employees.find? (fun e => idMatches cur.employeeId e.id) =
      some e2 → e2.services.any (fun sv => idMatches cur.serviceId sv.id) = false)
    (acc : UIState) :
    (serviceEffect D cur acc).employeeId = "" ∧
    (serviceEffect D cur acc).selectedSlot = "" := by
  unfold serviceEffect
  rw [if_neg (by simp [hsv, hemp]), hdd]
  dsimp only
  rcases hfind : dd.employees.find? (fun e => idMatches cur.employeeId e.id)
    with _ | e2
  · rw [hfind]
    exact ⟨rfl, rfl⟩
  · rw [hfind]
    dsimp only
    rw [hbad e2 hfind]
    rw [if_neg (by simp)]
    exact ⟨rfl, rfl⟩

/-- The service effect leaves the accumulator untouched when no service
is chosen, no day entry is selected, or the chosen employee is found and
compatible. -/
theorem serviceEffect_acc {D : Derived} (cur : UIState) (acc : UIState)
    (h : (cur.serviceId == "") = true ∨ D.dayData = none ∨
      ∃ dd emp, D.dayData = some dd ∧
        dd.employees.find? (fun e => idMatches cur.employeeId e.id) = some emp ∧
        emp.services.any (fun sv => idMatches cur.serviceId sv.id) = true) :
    serviceEffect D cur acc = acc := by
  unfold serviceEffect
  rcases h with h | h | ⟨dd, emp, hdd, hfind, hany⟩
  · rw [if_pos (by simp [h])]
  · split
    · rfl
    · rw [h]
  · split
    · rfl
    · rw [hdd]
      dsimp only
      rw [hfind]
      dsimp only
      rw [if_pos hany]

/-! ### One effect pass, symbolically -/

/-- `runPass` written out once both committed renders derive. -/
theorem runPass_some {P : DateParser} {today : CalDate} {prev cur : UIState}
    {Dp Dc : Derived}
    (hp : derive P today prev = some Dp) (hc : derive P today cur = some Dc) :
    runPass P today prev cur =
      (let e2 := prev.availGen != cur.availGen ||
        prev.employeeId != cur.employeeId || prev.serviceId != cur.serviceId
      let a0 := cur
      let a1 := if e2 then validityEffect Dc cur a0 else a0
      let a2 := if prev.selectedDate != cur.selectedDate then dateResetEffect a1
        else a1
      let a3 := if prev.employeeId != cur.employeeId then employeeEffect Dc cur a2
        else a2
      let a4 := if prev.serviceId != cur.serviceId ||
          prev.employeeId != cur.employeeId ||
          dayDataDepChanged prev cur Dp Dc then serviceEffect Dc cur a3 else a3
      a4) := by
  unfold runPass
  rw [hp, hc]

theorem settle_succ_serviceId (P : DateParser) (today : CalDate) (fuel : Nat)
    {prev cur : UIState} (h : (runPass P today prev cur).serviceId = "") :
    (settle P today (fuel + 1) prev cur).serviceId = "" := by
  unfold settle
  dsimp only
  split
  · next heq =>
    rw [← heq]
    exact h
  · exact settle_serviceId_empty h

theorem settle_succ_employeeId (P : DateParser) (today : CalDate) (fuel : Nat)
    {prev cur : UIState} (h : (runPass P today prev cur).employeeId = "") :
    (settle P today (fuel + 1) prev cur).employeeId = "" := by
  unfold settle
  dsimp only
  split
  · next heq =>
    rw [← heq]
    exact h
  · exact settle_employeeId_empty h

theorem settle_succ_slot (P : DateParser) (today : CalDate) (fuel : Nat)
    {prev cur : UIState} (h : (runPass P today prev cur).selectedSlot = "") :
    (settle P today (fuel + 1) prev cur).selectedSlot = "" := by
  unfold settle
  dsimp only
  split
  · next heq =>
    rw [← heq]
    exact h
  · exact settle_slot_empty h

/-- After the effect pass that follows picking an employee who cannot
perform the chosen service, the service is cleared. -/
theorem runPass_clear_service {P : DateParser} {today : CalDate}
    {s : UIState} {v : String} {Dp D : Derived} {dd : DayAvailability}
    {emp : EmployeeAvailability}
    (hDp : derive P today s = some Dp)
    (hD : derive P today { s with employeeId := v } = some D)
    (hv : (v == "") = false)
    (hvne : (v == s.employeeId) = false)
    (hdd : D.dayData = some dd)
    (hf : dd.employees.find? (fun e => idMatches v e.id) = some emp)
    (hs : (s.serviceId != "") = true)
    (hoff : emp.services.any (fun sv => idMatches s.serviceId sv.id) = false) :
    (runPass P today s { s with employeeId := v }).serviceId = "" := by
  rw [runPass_some hDp hD]
  dsimp only
  have hempP : (s.employeeId != v) = true := by
    simp only [bne, beq_symm_false hvne, Bool.not_false]
  have hC : (s.serviceId != s.serviceId || s.employeeId != v ||
      dayDataDepChanged s { s with employeeId := v } Dp D) = true := by
    simp [hempP]
  rw [if_pos hC, serviceEffect_serviceId, if_pos hempP]
  exact employeeEffect_clear_service { s with employeeId := v } hv hdd hf hs hoff _

/-- After the effect pass that follows picking a service the chosen
employee cannot perform, the employee and the slot are cleared. -/
theorem runPass_clear_emp {P : DateParser} {today : CalDate}
    {s : UIState} {v : String} {Dp D : Derived} {dd : DayAvailability}
    (hDp : derive P today s = some Dp)
    (hD : derive P today { s with serviceId := v } = some D)
    (hvne : (v == s.serviceId) = false)
    (hv : (v == "") = false)
    (hemp : (s.employeeId == "") = false)
    (hdd : D.dayData = some dd)
    (hbad : ∀ e2, dd.employees.find? (fun e => idMatches s.employeeId e.id) =
      some e2 → e2.services.any (fun sv => idMatches v sv.id) = false) :
    (runPass P today s { s with serviceId := v }).employeeId = "" ∧
    (runPass P today s { s with serviceId := v }).selectedSlot = "" := by
  rw [runPass_some hDp hD]
  dsimp only
  have hsne : (s.serviceId != v) = true := by
    simp only [bne, beq_symm_false hvne, Bool.not_false]
  have hC : (s.serviceId != v || s.employeeId != s.employeeId ||
      dayDataDepChanged s { s with serviceId := v } Dp D) = true := by
    simp [hsne]
  rw [if_pos hC]
  exact serviceEffect_clear_emp { s with serviceId := v } hv hemp hdd hbad _

/-- After the effect pass that follows a date change, the slot is
cleared. -/
theorem runPass_dateChange_slot {P : DateParser} {today : CalDate}
    {s : UIState} {d : CalDate} {Dp D : Derived}
    (hDp : derive P today s = some Dp)
    (hD : derive P today { s with selectedDate := some d } = some D)
    (hdne : (some d == s.selectedDate) = false) :
    (runPass P today s { s with selectedDate := some d }).selectedSlot = "" := by
  rw [runPass_some hDp hD]
  dsimp only
  have hd2 : (s.selectedDate != some d) = true := by
    simp only [bne, beq_symm_false hdne, Bool.not_false]
  have hA3 : (s.employeeId != s.employeeId) = false := by simp
  split
  · rcases (serviceEffect_writes D _ _).2.2.2.2.2.2.2.2.2.2.2 with hsl | hsl
    · rw [hsl, ite_cond_false _ _ hA3]
      rfl
    · exact hsl
  · rw [ite_cond_false _ _ hA3]
    rfl

/-- After the effect pass that follows picking an employee present on the
selected day, the slot is cleared. -/
theorem runPass_empChange_slot {P : DateParser} {today : CalDate}
    {s : UIState} {v : String} {Dp D : Derived} {dd : DayAvailability}
    {emp : EmployeeAvailability}
    (hDp : derive P today s = some Dp)
    (hD : derive P today { s with employeeId := v } = some D)
    (hvne : (v == s.employeeId) = false)
    (hv : (v == "") = false)
    (hdd : D.dayData = some dd)
    (hf : dd.employees.find? (fun e => idMatches v e.id) = some emp) :
    (runPass P today s { s with employeeId := v }).selectedSlot = "" := by
  rw [runPass_some hDp hD]
  dsimp only
  have hempP : (s.employeeId != v) = true := by
    simp only [bne, beq_symm_false hvne, Bool.not_false]
  split
  · rcases (serviceEffect_writes D _ _).2.2.2.2.2.2.2.2.2.2.2 with hsl | hsl
    · rw [hsl]
      exact employeeEffect_clear_slot { s with employeeId := v } hv hdd hf _
    · exact hsl
  · exact employeeEffect_clear_slot { s with employeeId := v } hv hdd hf _

/-! ### The incompatibility reset cascade -/

/-- C4: picking an employee who does not offer the chosen service clears
the service; picking a service the chosen employee does not offer clears
the employee and the slot.  Both conclusions hold at every effect-pass
budget, and effects only ever clear these fields (`settle_writes`), so the
cleared value is never re-established within the same update. -/
theorem C4_incompatibility_resets (P : DateParser) (today : CalDate)
    (fuel : Nat) (s : UIState) (v : String) :
    ((v == s.employeeId) = false → (v == "") = false →
      ∀ Dp D dd emp, derive P today s = some Dp →
        derive P today { s with employeeId := v } = some D →
        D.dayData = some dd →
        dd.employees.find? (fun e => idMatches v e.id) = some emp →
        (s.serviceId != "") = true →
        emp.services.any (fun sv => idMatches s.serviceId sv.id) = false →
        (userSetEmployee P today (fuel + 1) s v).serviceId = "") ∧
    ((v == s.serviceId) = false → (v == "") = false →
      (s.employeeId == "") = false →
      ∀ Dp D dd, derive P today s = some Dp →
        derive P today { s with serviceId := v } = some D →
        D.dayData = some dd →
        (∀ e2, dd.employees.find? (fun e => idMatches s.employeeId e.id) =
          some e2 → e2.services.any (fun sv => idMatches v sv.id) = false) →
        (userSetService P today (fuel + 1) s v).employeeId = "" ∧
        (userSetService P today (fuel + 1) s v).selectedSlot = "") := by
  constructor
  · intro hvne hv Dp D dd emp hDp hD hdd hf hs hoff
    unfold userSetEmployee
    rw [ite_cond_false _ _ hvne]
    exact settle_succ_serviceId P today fuel
      (runPass_clear_service hDp hD hv hvne hdd hf hs hoff)
  · intro hvne hv hemp Dp D dd hDp hD hdd hbad
    unfold userSetService
    rw [ite_cond_false _ _ hvne]
    exact ⟨settle_succ_employeeId P today fuel
        (runPass_clear_emp hDp hD hvne hv hemp hdd hbad).1,
      settle_succ_slot P today fuel
        (runPass_clear_emp hDp hD hvne hv hemp hdd hbad).2⟩

/-- C4 witness: picking Ana while Bea's color service is chosen clears
the service; picking the cut service while Bea is chosen clears Bea and
the 14:00 slot. -/
theorem C4_incompatibility_resets_witness :
    (userSetEmployee noParse t0 5 st1 "1").serviceId = "" ∧
    (userSetService noParse t0 5 st0 "1").employeeId = "" ∧
    (userSetService noParse t0 5 st0 "1").selectedSlot = "" :=
  ⟨(C4_incompatibility_resets noParse t0 4 st1 "1").1 (by decide) (by decide)
      (⟨[("2025-03-10", day10)], ["2025-03-10"], some ⟨2025, 3, 10⟩,
        some day10⟩ : Derived)
      (⟨[("2025-03-10", day10)], [], none, some day10⟩ : Derived)
      day10 empAna (by decide) (by decide) rfl (by decide) (by decide)
      (by decide),
   ((C4_incompatibility_resets noParse t0 4 st0 "1").2 (by decide) (by decide)
      (by decide)
      (⟨[("2025-03-10", day10)], ["2025-03-10"], some ⟨2025, 3, 10⟩,
        some day10⟩ : Derived)
      (⟨[("2025-03-10", day10)], [], none, some day10⟩ : Derived)
      day10 (by decide) (by decide) rfl
      (by
        intro e2 he2
        have h2 : empBea = e2 := by injection he2
        rw [← h2]
        decide)).1,
   ((C4_incompatibility_resets noParse t0 4 st0 "1").2 (by decide) (by decide)
      (by decide)
      (⟨[("2025-03-10", day10)], ["2025-03-10"], some ⟨2025, 3, 10⟩,
        some day10⟩ : Derived)
      (⟨[("2025-03-10", day10)], [], none, some day10⟩ : Derived)
      day10 (by decide) (by decide) rfl
      (by
        intro e2 he2
        have h2 : empBea = e2 := by injection he2
        rw [← h2]
        decide)).2⟩

/-! ### Slot resets on date and employee changes -/

/-- C5 (amended): changing the selected date always clears the slot, and
changing the selected employee clears the slot whenever an employee is
actually picked (a non-empty id present on the selected day's entry).
(The unconditional claim fails for deselection: clearing the employee
leaves the slot untouched, see the counterexample.) -/
theorem C5_slot_reset (P : DateParser) (today : CalDate) (fuel : Nat)
    (s : UIState) :
    (∀ d Dp Dc, (some d == s.selectedDate) = false →
      derive P today s = some Dp →
      derive P today { s with selectedDate := some d } = some Dc →
      (userSetDate P today (fuel + 1) s d).selectedSlot = "") ∧
    (∀ v Dp Dc dd emp, (v == s.employeeId) = false → (v == "") = false →
      derive P today s = some Dp →
      derive P today { s with employeeId := v } = some Dc →
      Dc.dayData = some dd →
      dd.employees.find? (fun e => idMatches v e.id) = some emp →
      (userSetEmployee P today (fuel + 1) s v).selectedSlot = "") := by
  constructor
  · intro d Dp Dc hdne hDp hDc
    unfold userSetDate
    rw [ite_cond_false _ _ hdne]
    exact settle_succ_slot P today fuel (runPass_dateChange_slot hDp hDc hdne)
  · intro v Dp Dc dd emp hvne hv hDp hDc hdd hf
    unfold userSetEmployee
    rw [ite_cond_false _ _ hvne]
    exact settle_succ_slot P today fuel
      (runPass_empChange_slot hDp hDc hvne hv hdd hf)

/-- C5 counterexample: deselecting the employee (a change of the employee
field, to empty) leaves the previously chosen 14:00 slot in place. -/
theorem C5_slot_reset_counterexample :
    ("" == st0.employeeId) = false ∧ st0.selectedSlot = "14:00" ∧
    (userSetEmployee noParse t0 5 st0 "").selectedSlot = "14:00" := by
  decide

/-- C5 witness: moving the date to March 11 clears the slot, and so does
picking Ana on the selected March 10 day. -/
theorem C5_slot_reset_witness :
    (userSetDate noParse t0 5 st0 ⟨2025, 3, 11⟩).selectedSlot = "" ∧
    (userSetEmployee noParse t0 5 st0 "1").selectedSlot = "" :=
  ⟨(C5_slot_reset noParse t0 4 st0).1 ⟨2025, 3, 11⟩
      (⟨[("2025-03-10", day10)], ["2025-03-10"], some ⟨2025, 3, 10⟩,
        some day10⟩ : Derived)
      (⟨[("2025-03-10", day10)], ["2025-03-10"], some ⟨2025, 3, 10⟩,
        none⟩ : Derived)
      (by decide) (by decide) (by decide),
   (C5_slot_reset noParse t0 4 st0).2 "1"
      (⟨[("2025-03-10", day10)], ["2025-03-10"], some ⟨2025, 3, 10⟩,
        some day10⟩ : Derived)
      (⟨[("2025-03-10", day10)], [], none, some day10⟩ : Derived)
      day10 empAna (by decide) (by decide) (by decide) (by decide) rfl
      (by decide)⟩

/-! ### Validation and submission -/

/-- Fields the availability fetch never writes. -/
theorem fetchStep_fields (P : DateParser) (o : FetchOutcome) (s : UIState) :
    (fetchStep P o s).name = s.name ∧ (fetchStep P o s).phone = s.phone ∧
    (fetchStep P o s).note = s.note ∧
    (fetchStep P o s).serviceId = s.serviceId ∧
    (fetchStep P o s).employeeId = s.employeeId ∧
    (fetchStep P o s).month = s.month ∧
    (fetchStep P o s).submitting = s.submitting := by
  cases o with
  | success resp =>
    unfold fetchStep
    dsimp only
    rcases hn : normalizeSnap P resp with _ | a2 <;> simp [hn]
  | failure nm msg =>
    unfold fetchStep
    dsimp only
    rcases hb : nm != "AbortError" with _ | _ <;> simp [hb]

/-- C8: submission is enabled exactly when name, phone, service, slot,
date and employee are all set and no submission is in flight; under these
preconditions, a successful POST clears note and slot, keeps name, phone,
service and employee, releases the submitting flag, and re-fetches the
displayed month exactly once — whatever that re-fetch itself returns. -/
theorem C8_submission (P : DateParser) (s : UIState) :
    (canReserve s = true ↔ s.name ≠ "" ∧ s.phone ≠ "" ∧ s.serviceId ≠ "" ∧
      s.selectedSlot ≠ "" ∧ s.selectedDate.isSome = true ∧ s.employeeId ≠ "" ∧
      s.submitting = false) ∧
    (canReserve s = true → ∀ fr,
      (handleSubmit P (.posted fr) s).state.note = "" ∧
      (handleSubmit P (.posted fr) s).state.selectedSlot = "" ∧
      (handleSubmit P (.posted fr) s).state.name = s.name ∧
      (handleSubmit P (.posted fr) s).state.phone = s.phone ∧
      (handleSubmit P (.posted fr) s).state.serviceId = s.serviceId ∧
      (handleSubmit P (.posted fr) s).state.employeeId = s.employeeId ∧
      (handleSubmit P (.posted fr) s).state.submitting = false ∧
      (handleSubmit P (.posted fr) s).fetchedMonths = [s.month]) := by
  constructor
  · unfold canReserve
    simp [Bool.and_eq_true, bne_iff_ne, Bool.not_eq_true', and_assoc]
  · intro hcr fr
    unfold handleSubmit
    dsimp only
    rw [if_neg (by simp [show canReserve { s with error := "" } = true from hcr])]
    dsimp only
    obtain ⟨f1, f2, f3, f4, f5, f6, f7⟩ :=
      fetchStep_fields P fr { s with error := "", submitting := true }
    exact ⟨rfl, rfl, f1, f2, f4, f5, rfl, rfl⟩

/-- C8 witness: from the fully populated `st0`, a successful booking and
re-fetch clears note and slot, keeps the identity fields and re-fetches
exactly the displayed month. -/
theorem C8_submission_witness :
    canReserve st0 = true ∧
    (handleSubmit noParse (.posted (.success snap0)) st0).state.note = "" ∧
    (handleSubmit noParse (.posted (.success snap0)) st0).state.selectedSlot
      = "" ∧
    (handleSubmit noParse (.posted (.success snap0)) st0).state.name
      = st0.name ∧
    (handleSubmit noParse (.posted (.success snap0)) st0).fetchedMonths
      = [st0.month] := by
  have h := (C8_submission noParse st0).2 (by decide) (.success snap0)
  exact ⟨by decide, h.1, h.2.1, h.2.2.1, h.2.2.2.2.2.2.2⟩

/-! ### The employee-selection date jump -/

theorem selectedDayData_none (av : Option AvailabilityResponse)
    (m : List (String × DayAvailability)) : selectedDayData av none m = none := by
  rcases av with _ | a2 <;> rfl

/-- A member of the available-day set names a unique snapshot day entry
that passes the filter. -/
theorem daySet_mem_day {P : DateParser} {today : CalDate}
    {a : AvailabilityResponse} {eId sId : String}
    {m : List (String × DayAvailability)} {daySet : List String}
    (hWF : WFSnapshot a)
    (hb : buildDayIndex P today (some a) eId sId = some (m, daySet))
    {k : String} (hk : k ∈ daySet) :
    ∃ d, a.days.find? (fun x => x.date == k) = some d ∧ d ∈ a.days ∧
      d.date = k ∧ dayPass today eId sId d = true := by
  obtain ⟨m2, s2, hb2, hchar, -⟩ :=
    buildDayIndex_spec P today eId sId (WF_shaped hWF)
  rw [hb] at hb2
  injection hb2 with hb3
  injection hb3 with hm hs
  subst hs
  obtain ⟨d1, hd1, hd1k, hp1⟩ := (hchar k).mp hk
  rcases hfind : a.days.find? (fun x => x.date == k) with _ | d2
  · exfalso
    have h2 := List.find?_eq_none.mp hfind d1 hd1
    simp [hd1k] at h2
  · have hd2 : d2 ∈ a.days := List.mem_of_find?_eq_some hfind
    have hd2k : d2.date = k := by
      have h2 := List.find?_some hfind
      simpa using h2
    have heq : d1 = d2 :=
      List.inj_on_of_nodup_map hWF.2 hd1 hd2 (by rw [hd1k, hd2k])
    exact ⟨d2, hfind, hd2, hd2k, heq ▸ hp1⟩

/-- Under an employee filter, a passing day's first-match entry has open
slots and (when a service is chosen) offers it. -/
theorem dayHas_extract {v sId : String} {d : DayAvailability}
    {emp : EmployeeAvailability}
    (hv : (v == "") = false)
    (hf : d.employees.find? (fun e => idMatches v e.id) = some emp)
    (h : dayHasAvailability v sId d = true) :
    0 < emp.slots.length ∧
      ((sId == "") = true ∨
        emp.services.any (fun sv => idMatches sId sv.id) = true) := by
  unfold dayHasAvailability at h
  rw [if_pos (by simp [bne, hv]), hf] at h
  dsimp only at h
  by_cases hp : emp.slots.length > 0
  · rw [if_pos hp] at h
    refine ⟨hp, ?_⟩
    by_cases hsid : (sId != "") = true
    · rw [if_pos hsid] at h
      exact Or.inr h
    · left
      rcases h2 : sId == "" with _ | _
      · exfalso
        apply hsid
        simp [bne, h2]
      · rfl
  · rw [if_neg hp] at h
    exact absurd h (by simp)

/-- When the employee picked on the selected day has no open slots, the
selected day's key is outside the employee-filtered available-day set. -/
theorem daySet_not_contains {P : DateParser} {today : CalDate}
    {a : AvailabilityResponse} {v sId : String}
    {m : List (String × DayAvailability)} {daySet : List String}
    {k : String} {dd : DayAvailability} {emp : EmployeeAvailability}
    (hWF : WFSnapshot a) (hv : (v == "") = false)
    (hb : buildDayIndex P today (some a) v sId = some (m, daySet))
    (hmg : mapGet m k = some dd)
    (hf : dd.employees.find? (fun e => idMatches v e.id) = some emp)
    (hslots : emp.slots.length = 0) :
    daySet.contains k = false := by
  rcases hc : daySet.contains k with _ | _
  · rfl
  · exfalso
    have hk : k ∈ daySet := by simpa using hc
    obtain ⟨d2, hfind, hd2, hd2k, hp⟩ := daySet_mem_day hWF hb hk
    have hmg2 : mapGet m k = a.days.find? (fun x => x.date == k) :=
      daysByKey_spec hb (WF_shaped hWF) hWF.2 k
    rw [hmg, hfind] at hmg2
    injection hmg2 with hdd2
    rw [← hdd2] at hp
    have hhav : dayHasAvailability v sId dd = true := by
      unfold dayPass at hp
      rw [Bool.and_eq_true] at hp
      exact hp.2
    obtain ⟨hpos, -⟩ := dayHas_extract hv hf hhav
    omega

/-- Two effect passes reaching a fixpoint settle the state, for every
sufficient fuel. -/
theorem settle_two (P : DateParser) (today : CalDate) (fuel : Nat)
    {prev cur E : UIState}
    (h1 : runPass P today prev cur = E) (hne : ¬E = cur)
    (h2 : runPass P today cur E = E) :
    settle P today (fuel + 2) prev cur = E := by
  show settle P today (fuel + 1 + 1) prev cur = E
  unfold settle
  dsimp only
  rw [h1, if_neg hne]
  unfold settle
  dsimp only
  rw [h2, if_pos rfl]

/-- The jump pass: picking an employee whose entry on the (invalid)
selected day has no usable slots rewrites the date to the earliest
available one and clears the slot. -/
theorem runPass_jump_some {P : DateParser} {today : CalDate}
    {s : UIState} {v : String} {a : AvailabilityResponse}
    {Dp D : Derived} {dd : DayAvailability} {emp : EmployeeAvailability}
    {d0 c : CalDate}
    (hav : s.availability = some a)
    (hDp : derive P today s = some Dp)
    (hD : derive P today { s with employeeId := v } = some D)
    (hv : (v == "") = false)
    (hvne : (v == s.employeeId) = false)
    (hd0 : s.selectedDate = some d0)
    (hinv : D.availableDaySet.contains (formatYMD d0) = false)
    (hdd : D.dayData = some dd)
    (hf : dd.employees.find? (fun e => idMatches v e.id) = some emp)
    (hcompat : (s.serviceId == "") = true ∨
      emp.services.any (fun sv => idMatches s.serviceId sv.id) = true)
    (hslots : emp.slots.length = 0)
    (hE : D.earliest = some c) :
    runPass P today s { s with employeeId := v } =
      { s with employeeId := v, selectedDate := some c, selectedSlot := "", timeOpen := false } := by
  have hempP : (s.employeeId != v) = true := by
    simp only [bne, beq_symm_false hvne, Bool.not_false]
  have he2 : (s.availGen != s.availGen || s.employeeId != v ||
      s.serviceId != s.serviceId) = true := by simp [hempP]
  have hC : (s.serviceId != s.serviceId || s.employeeId != v ||
      dayDataDepChanged s { s with employeeId := v } Dp D) = true := by
    simp [hempP]
  have hve : validityEffect D { s with employeeId := v }
      { s with employeeId := v } =
      { s with employeeId := v, selectedDate := some c } := by
    unfold validityEffect
    dsimp only
    rw [hav]
    dsimp only
    rw [hd0]
    dsimp only
    rw [hinv, ite_cond_false _ _ rfl, hE]
  have hee : employeeEffect D { s with employeeId := v }
      { s with employeeId := v, selectedDate := some c } =
      { s with employeeId := v, selectedDate := some c, selectedSlot := "", timeOpen := false } := by
    unfold employeeEffect
    dsimp only
    rw [ite_cond_false _ _ hv, hdd]
    dsimp only
    rw [hf]
    dsimp only
    rw [hslots]
    rcases hcompat with hc1 | hc1
    · have hsvc : (s.serviceId != "") = false := by simp [bne, hc1]
      rw [hsvc]
      simp only [Bool.false_and, Bool.false_eq_true, if_false]
      rw [show (decide (0 > 0)) = false from rfl]
      simp only [Bool.false_and, Bool.not_false]
      rw [if_pos trivial, hE]
    · rw [hc1]
      simp only [Bool.not_true, Bool.and_false, Bool.false_eq_true, if_false]
      rw [show (decide (0 > 0)) = false from rfl]
      simp only [Bool.false_and, Bool.not_false]
      rw [if_pos trivial, hE]
  rw [runPass_some hDp hD]
  dsimp only
  rw [if_pos he2, hve,
    ite_cond_false _ _ (show (s.selectedDate != s.selectedDate) = false by simp),
    if_pos hempP, hee, if_pos hC]
  rw [serviceEffect_acc { s with employeeId := v }
    { s with employeeId := v, selectedDate := some c, selectedSlot := "", timeOpen := false } ?_]
  rcases hcompat with hc1 | hc1
  · exact Or.inl hc1
  · exact Or.inr (Or.inr ⟨dd, emp, hdd, hf, hc1⟩)

/-- The jump pass when no date is available for the picked employee: the
date and the slot are cleared. -/
theorem runPass_jump_none {P : DateParser} {today : CalDate}
    {s : UIState} {v : String} {a : AvailabilityResponse}
    {Dp D : Derived} {dd : DayAvailability} {emp : EmployeeAvailability}
    {d0 : CalDate}
    (hav : s.availability = some a)
    (hDp : derive P today s = some Dp)
    (hD : derive P today { s with employeeId := v } = some D)
    (hv : (v == "") = false)
    (hvne : (v == s.employeeId) = false)
    (hd0 : s.selectedDate = some d0)
    (hinv : D.availableDaySet.contains (formatYMD d0) = false)
    (hdd : D.dayData = some dd)
    (hf : dd.employees.find? (fun e => idMatches v e.id) = some emp)
    (hcompat : (s.serviceId == "") = true ∨
      emp.services.any (fun sv => idMatches s.serviceId sv.id) = true)
    (hslots : emp.slots.length = 0)
    (hE : D.earliest = none) :
    runPass P today s { s with employeeId := v } =
      { s with employeeId := v, selectedDate := none, selectedSlot := "", timeOpen := false } := by
  have hempP : (s.employeeId != v) = true := by
    simp only [bne, beq_symm_false hvne, Bool.not_false]
  have he2 : (s.availGen != s.availGen || s.employeeId != v ||
      s.serviceId != s.serviceId) = true := by simp [hempP]
  have hC : (s.serviceId != s.serviceId || s.employeeId != v ||
      dayDataDepChanged s { s with employeeId := v } Dp D) = true := by
    simp [hempP]
  have hve : validityEffect D { s with employeeId := v }
      { s with employeeId := v } =
      { s with employeeId := v, selectedDate := none, selectedSlot := "" } := by
    unfold validityEffect
    dsimp only
    rw [hav]
    dsimp only
    rw [hd0]
    dsimp only
    rw [hinv, ite_cond_false _ _ rfl, hE]
  have hee : employeeEffect D { s with employeeId := v }
      { s with employeeId := v, selectedDate := none, selectedSlot := "" } =
      { s with employeeId := v, selectedDate := none, selectedSlot := "", timeOpen := false } := by
    unfold employeeEffect
    dsimp only
    rw [ite_cond_false _ _ hv, hdd]
    dsimp only
    rw [hf]
    dsimp only
    rw [hslots]
    rcases hcompat with hc1 | hc1
    · have hsvc : (s.serviceId != "") = false := by simp [bne, hc1]
      rw [hsvc]
      simp only [Bool.false_and, Bool.false_eq_true, if_false]
      rw [show (decide (0 > 0)) = false from rfl]
      simp only [Bool.false_and, Bool.not_false]
      rw [if_pos trivial, hE]
    · rw [hc1]
      simp only [Bool.not_true, Bool.and_false, Bool.false_eq_true, if_false]
      rw [show (decide (0 > 0)) = false from rfl]
      simp only [Bool.false_and, Bool.not_false]
      rw [if_pos trivial, hE]
  rw [runPass_some hDp hD]
  dsimp only
  rw [if_pos he2, hve,
    ite_cond_false _ _ (show (s.selectedDate != s.selectedDate) = false by simp),
    if_pos hempP, hee, if_pos hC]
  rw [serviceEffect_acc { s with employeeId := v }
    { s with employeeId := v, selectedDate := none, selectedSlot := "", timeOpen := false } ?_]
  rcases hcompat with hc1 | hc1
  · exact Or.inl hc1
  · exact Or.inr (Or.inr ⟨dd, emp, hdd, hf, hc1⟩)

/-- The pass after the jump is a fixpoint: the committed render repeats
the previous employee, service and snapshot, and only the date changed. -/
theorem runPass_jump_fix {P : DateParser} {today : CalDate}
    {s : UIState} {v : String} {X : Option CalDate} {Dp2 D1 : Derived}
    (hp : derive P today { s with employeeId := v } = some Dp2)
    (hc : derive P today { s with employeeId := v, selectedDate := X, selectedSlot := "", timeOpen := false } = some D1)
    (hdneq : (s.selectedDate != X) = true)
    (hben : (s.serviceId == "") = true ∨ D1.dayData = none ∨
      ∃ dd1 emp1, D1.dayData = some dd1 ∧
        dd1.employees.find? (fun e => idMatches v e.id) = some emp1 ∧
        emp1.services.any (fun sv => idMatches s.serviceId sv.id) = true) :
    runPass P today { s with employeeId := v }
      { s with employeeId := v, selectedDate := X, selectedSlot := "", timeOpen := false } =
      { s with employeeId := v, selectedDate := X, selectedSlot := "", timeOpen := false } := by
  rw [runPass_some hp hc]
  dsimp only
  rw [ite_cond_false _ _ (show (s.availGen != s.availGen || v != v ||
    s.serviceId != s.serviceId) = false by simp)]
  rw [if_pos hdneq]
  rw [ite_cond_false _ _ (show (v != v) = false by simp)]
  split
  · rw [serviceEffect_acc
      { s with employeeId := v, selectedDate := X, selectedSlot := "", timeOpen := false }
      (dateResetEffect { s with employeeId := v, selectedDate := X, selectedSlot := "", timeOpen := false }) hben]
    rfl
  · rfl

/-- C6: after picking an employee who is present on the selected day's
entry with zero open slots (and compatible with the chosen service, or
with no service chosen), the settled state has jumped to the
chronologically earliest date available for that employee under the
active service filter; when no such date exists, the date and the slot
are cleared. -/
theorem C6_employee_date_jump {P : DateParser} {today : CalDate}
    {s : UIState} {a : AvailabilityResponse} {v : String} {d0 : CalDate}
    {D : Derived} {dd : DayAvailability} {emp : EmployeeAvailability}
    (fuel : Nat)
    (hav : s.availability = some a) (hWF : WFSnapshot a)
    (hvne : (v == s.employeeId) = false) (hv : (v == "") = false)
    (hd0 : s.selectedDate = some d0)
    (hD : derive P today { s with employeeId := v } = some D)
    (hdd : D.dayData = some dd)
    (hf : dd.employees.find? (fun e => idMatches v e.id) = some emp)
    (hcompat : (s.serviceId == "") = true ∨
      emp.services.any (fun sv => idMatches s.serviceId sv.id) = true)
    (hslots : emp.slots.length = 0) :
    (D.earliest = none →
      (userSetEmployee P today (fuel + 2) s v).selectedDate = none ∧
      (userSetEmployee P today (fuel + 2) s v).selectedSlot = "") ∧
    (∀ c, D.earliest = some c →
      (userSetEmployee P today (fuel + 2) s v).selectedDate = some c ∧
      (userSetEmployee P today (fuel + 2) s v).selectedSlot = "" ∧
      ∃ k0, k0 ∈ D.availableDaySet ∧ parseKeyShaped k0 = some c ∧
        ∀ k ∈ D.availableDaySet, ∀ c2, parseKeyShaped k = some c2 →
          CalDate.before c2 c = false) := by
  obtain ⟨hb', he', hdd'⟩ := derive_inv hD
  dsimp only at hb' he' hdd'
  rw [hav] at hb' he'
  obtain ⟨Dp, hDp⟩ :=
    (derive_total hav hWF : ∃ Dp, derive P today s = some Dp)
  rw [hav, hd0] at hdd'
  unfold selectedDayData at hdd'
  dsimp only at hdd'
  rw [hdd] at hdd'
  have hmg : mapGet D.daysByKey (formatYMD d0) = some dd := hdd'.symm
  have hinv : D.availableDaySet.contains (formatYMD d0) = false :=
    daySet_not_contains hWF hv hb' hmg hf hslots
  constructor
  · intro hE
    have h1 := runPass_jump_none hav hDp hD hv hvne hd0 hinv hdd hf hcompat
      hslots hE
    have hne : ¬({ s with employeeId := v, selectedDate := none, selectedSlot := "", timeOpen := false } : UIState) =
        { s with employeeId := v } := by
      intro hcontra
      have h2 : (({ s with employeeId := v, selectedDate := none, selectedSlot := "", timeOpen := false } : UIState)).selectedDate =
          (({ s with employeeId := v } : UIState)).selectedDate := by
        rw [hcontra]
      dsimp only at h2
      rw [hd0] at h2
      exact absurd h2 (by simp)
    obtain ⟨D1, hD1⟩ :=
      (derive_total (show (({ s with employeeId := v, selectedDate := none, selectedSlot := "", timeOpen := false } : UIState)).availability =
          some a from hav) hWF :
        ∃ D1, derive P today { s with employeeId := v, selectedDate := none, selectedSlot := "", timeOpen := false } = some D1)
    have hdd1 : D1.dayData = none := by
      obtain ⟨-, -, h3⟩ := derive_inv hD1
      rw [h3]
      dsimp only
      exact selectedDayData_none _ _
    have hdneq : (s.selectedDate != (none : Option CalDate)) = true := by
      rw [hd0]
      simp
    have h2 := runPass_jump_fix hD hD1 hdneq (Or.inr (Or.inl hdd1))
    have hs2 := settle_two P today fuel h1 hne h2
    unfold userSetEmployee
    rw [ite_cond_false _ _ hvne, hs2]
    exact ⟨rfl, rfl⟩
  · intro c hE
    obtain ⟨hemp, hnem⟩ := earliest_spec hWF hb'
    have hsne : D.availableDaySet ≠ [] := by
      intro hnil
      have h4 := hemp hnil
      rw [he'] at h4
      rw [hE] at h4
      simp at h4
    obtain ⟨c2, k0, heq2, hk0, hpar0, hmin0⟩ := hnem hsne
    have hcc : c = c2 := by
      rw [he'] at heq2
      rw [hE] at heq2
      simpa using heq2
    subst hcc
    have hk0eq : formatYMD c = k0 := formatYMD_of_parseKeyShaped hpar0
    have hnec : d0 ≠ c := by
      intro hdc
      rw [hdc, hk0eq] at hinv
      have hcm : D.availableDaySet.contains k0 = true := by simpa using hk0
      rw [hinv] at hcm
      exact absurd hcm (by simp)
    have h1 := runPass_jump_some hav hDp hD hv hvne hd0 hinv hdd hf hcompat
      hslots hE
    have hne : ¬({ s with employeeId := v, selectedDate := some c, selectedSlot := "", timeOpen := false } : UIState) =
        { s with employeeId := v } := by
      intro hcontra
      have h2 : (({ s with employeeId := v, selectedDate := some c, selectedSlot := "", timeOpen := false } : UIState)).selectedDate =
          (({ s with employeeId := v } : UIState)).selectedDate := by
        rw [hcontra]
      dsimp only at h2
      rw [hd0] at h2
      injection h2 with h3
      exact hnec h3.symm
    obtain ⟨D1, hD1⟩ :=
      (derive_total (show (({ s with employeeId := v, selectedDate := some c, selectedSlot := "", timeOpen := false } : UIState)).availability =
          some a from hav) hWF :
        ∃ D1, derive P today { s with employeeId := v, selectedDate := some c, selectedSlot := "", timeOpen := false } =
          some D1)
    have hben : (s.serviceId == "") = true ∨ D1.dayData = none ∨
        ∃ dd1 emp1, D1.dayData = some dd1 ∧
          dd1.employees.find? (fun e => idMatches v e.id) = some emp1 ∧
          emp1.services.any (fun sv => idMatches s.serviceId sv.id) = true := by
      obtain ⟨hb1, -, hdd1⟩ := derive_inv hD1
      dsimp only at hb1 hdd1
      rw [hav] at hb1
      rw [hb'] at hb1
      injection hb1 with hb2
      injection hb2 with hmk hsk
      rw [hav] at hdd1
      unfold selectedDayData at hdd1
      dsimp only at hdd1
      rw [← hmk, hk0eq] at hdd1
      have hmg2 : mapGet D.daysByKey k0 = a.days.find? (fun x => x.date == k0) :=
        daysByKey_spec hb' (WF_shaped hWF) hWF.2 k0
      obtain ⟨d2, hfind, hd2, hd2k, hp2⟩ := daySet_mem_day hWF hb' hk0
      rw [hfind] at hmg2
      rw [hmg2] at hdd1
      have hhav2 : dayHasAvailability v s.serviceId d2 = true := by
        unfold dayPass at hp2
        rw [Bool.and_eq_true] at hp2
        exact hp2.2
      rcases hf2 : d2.employees.find? (fun e => idMatches v e.id) with _ | emp1
      · exfalso
        unfold dayHasAvailability at hhav2
        rw [if_pos (by simp [bne, hv]), hf2] at hhav2
        exact absurd hhav2 (by simp)
      · obtain ⟨hpos1, hcp1⟩ := dayHas_extract hv hf2 hhav2
        rcases hcp1 with hsid | hany1
        · exact Or.inl hsid
        · exact Or.inr (Or.inr ⟨d2, emp1, hdd1, hf2, hany1⟩)
    have hdneq : (s.selectedDate != some c) = true := by
      rw [hd0]
      simp only [bne_iff_ne, ne_eq, Option.some.injEq]
      exact hnec
    have h2 := runPass_jump_fix hD hD1 hdneq hben
    have hs2 := settle_two P today fuel h1 hne h2
    unfold userSetEmployee
    rw [ite_cond_false _ _ hvne, hs2]
    exact ⟨rfl, rfl, k0, hk0, hpar0, earliest_min_chrono hpar0 hmin0⟩

/-- C6 witness: with March 12 selected and Ana slotless there, picking
Ana jumps the settled state to March 10 — her chronologically earliest
available day — and clears the slot. -/
theorem C6_employee_date_jump_witness :
    (userSetEmployee noParse t0 6 st2 "1").selectedDate =
      some ⟨2025, 3, 10⟩ ∧
    (userSetEmployee noParse t0 6 st2 "1").selectedSlot = "" ∧
    ∃ k0, k0 ∈ ["2025-03-10"] ∧ parseKeyShaped k0 = some ⟨2025, 3, 10⟩ ∧
      ∀ k ∈ ["2025-03-10"], ∀ c2, parseKeyShaped k = some c2 →
        CalDate.before c2 ⟨2025, 3, 10⟩ = false :=
  (C6_employee_date_jump 4
    (show st2.availability = some snap2 from rfl)
    (show WFSnapshot snap2 by constructor <;> decide)
    (by decide) (by decide)
    (show st2.selectedDate = some ⟨2025, 3, 12⟩ from rfl)
    (show derive noParse t0 { st2 with employeeId := "1" } =
      some ⟨[("2025-03-10", day10), ("2025-03-12", day12)], ["2025-03-10"],
        some ⟨2025, 3, 10⟩, some day12⟩ by decide)
    rfl
    (show day12.employees.find? (fun e => idMatches "1" e.id) =
      some empAnaFree by decide)
    (Or.inl (by decide)) rfl).2 ⟨2025, 3, 10⟩ rfl

end Booking
